import Mathlib

/-!
nexus-sync-repo: Maven default-layout codec, scanner and sync protocol


A shallow embedding of `main.go` (the sync tool) and `sfv-upload.go` (the
upload tool).

A Go `string` is a sequence of bytes.  It is embedded as `List Char`, one list
element per byte (byte `b` is the element `Char.ofNat b`), so `len` is
`List.length` and a slice `s[i:j]` is a `drop`/`take`.  Every theorem is stated
for all lists, hence for every Go string.

The functions of Go's `path/filepath` and `strings` packages the program calls
are embedded with their Unix behaviour (separator `/`, no volume names).
-/

set_option autoImplicit false

/-- A Go string: its bytes, in order. -/
abbrev GoString := List Char

namespace GoLib

/-- Go's `os.IsPathSeparator` on Unix. -/
def IsPathSeparator (c : Char) : Bool := c == '/'

/-- Go slice expression `s[i:j]`; `none` is the run-time panic
"slice bounds out of range" (raised when `i > j` or `j > len(s)`). -/
def sliceBetween (s : GoString) (i j : Nat) : Option GoString :=
  if i ≤ j ∧ j ≤ s.length then some ((s.drop i).take (j - i)) else none

/-- Go slice expression `s[i:]`; `none` is the panic raised when `i > len(s)`. -/
def sliceFrom (s : GoString) (i : Nat) : Option GoString :=
  if i ≤ s.length then some (s.drop i) else none

/-- The part of `s` up to and including its last separator (empty when `s`
has none): `path[:i+1]` after the backwards scan `for i >= 0 && !sep(path[i])`. -/
def throughLastSep (s : GoString) : GoString :=
  (s.reverse.dropWhile (fun c => !IsPathSeparator c)).reverse

/-- The part of `s` after its last separator (all of `s` when it has none):
`path[i+1:]` after the same backwards scan. -/
def afterLastSep (s : GoString) : GoString :=
  (s.reverse.takeWhile (fun c => !IsPathSeparator c)).reverse

/-- The loop `for len(path) > 0 && sep(path[len(path)-1])` of `filepath.Base`. -/
def stripTrailingSeps (s : GoString) : GoString :=
  (s.reverse.dropWhile IsPathSeparator).reverse

/-- Go's `filepath.Base`. -/
def Base (path : GoString) : GoString :=
  if path = [] then ['.']
  else
    let path := afterLastSep (stripTrailingSeps path)
    if path = [] then ['/'] else path

/-- The backwards scan of `filepath.Ext`: `rev` holds the bytes still to visit,
last byte first, `acc` the bytes already visited, in order. -/
def extScan : GoString → GoString → GoString
  | [], _ => []
  | c :: rev, acc =>
    if IsPathSeparator c then []
    else if c = '.' then c :: acc
    else extScan rev (c :: acc)

/-- Go's `filepath.Ext`: the suffix beginning at the final dot of the last
element of `path`, empty if there is no dot. -/
def Ext (path : GoString) : GoString := extScan path.reverse []

/-- The inner loop `for ; r < n && !sep(path[r]); r++ { out.append(path[r]) }`
of `filepath.Clean`: returns the output buffer and the unread input. -/
def copyElement : GoString → GoString → GoString × GoString
  | [], out => (out, [])
  | c :: rest, out =>
    if IsPathSeparator c then (out, c :: rest) else copyElement rest (out ++ [c])

/-- The loop `for out.w > dotdot && !sep(out.index(out.w)) { out.w-- }` of
`filepath.Clean`: `rev` is the kept part of the output buffer, last byte first,
and `removed` is the byte at index `out.w`, the one dropped last. -/
def backtrackLoop (dotdot : Nat) : GoString → Char → GoString
  | [], _ => []
  | c :: rev, removed =>
    if (c :: rev).length > dotdot ∧ !IsPathSeparator removed then backtrackLoop dotdot rev c
    else c :: rev

/-- The `can backtrack` branch of `filepath.Clean`: `out.w--` followed by
`backtrackLoop`.  It is entered only with `out.w > dotdot`, so `out` is not
empty. -/
def backtrack (out : GoString) (dotdot : Nat) : GoString :=
  match out.reverse with
  | [] => []
  | c :: rev => (backtrackLoop dotdot rev c).reverse

/-- The lookahead `r+k == n || os.IsPathSeparator(path[r+k])` on the unread input. -/
def atEndOrSep : GoString → Bool
  | [] => true
  | c :: _ => IsPathSeparator c

/-- The guard `if rooted && out.w != 1 || !rooted && out.w != 0 { out.append(Separator) }`
in front of a real path element in `filepath.Clean`. -/
def addSlashIfNeeded (rooted : Bool) (out : GoString) : GoString :=
  if (rooted && out.length != 1) || (!rooted && out.length != 0) then out ++ ['/'] else out

/-- The main loop `for r < n { switch ... }` of `filepath.Clean`.  The second
argument is the unread input `path[r:]`, the third the output buffer
`out[:out.w]`.  Every iteration reads at least one byte, so `len(path)`
iterations (the fuel) always suffice. -/
def cleanLoop (rooted : Bool) : Nat → GoString → GoString → Nat → GoString
  | 0, _, out, _ => out
  | _ + 1, [], out, _ => out
  | fuel + 1, c :: rest, out, dotdot =>
    if IsPathSeparator c then
      -- empty path element
      cleanLoop rooted fuel rest out dotdot
    else if c = '.' ∧ atEndOrSep rest then
      -- . element
      cleanLoop rooted fuel rest out dotdot
    else if c = '.' ∧ rest.head? = some '.' ∧ atEndOrSep rest.tail then
      -- .. element: remove to last separator
      if out.length > dotdot then
        cleanLoop rooted fuel rest.tail (backtrack out dotdot) dotdot
      else if !rooted then
        let out := (if out.length > 0 then out ++ ['/'] else out) ++ ['.', '.']
        cleanLoop rooted fuel rest.tail out out.length
      else
        cleanLoop rooted fuel rest.tail out dotdot
    else
      -- real path element: add slash if needed, copy element
      let copied := copyElement (c :: rest) (addSlashIfNeeded rooted out)
      cleanLoop rooted fuel copied.2 copied.1 dotdot

/-- Go's `filepath.Clean` on Unix. -/
def Clean (path : GoString) : GoString :=
  match path with
  | [] => ['.']
  | c :: rest =>
    let out :=
      if IsPathSeparator c then cleanLoop true (c :: rest).length rest ['/'] 1
      else cleanLoop false (c :: rest).length (c :: rest) [] 0
    -- Turn empty string into "."
    if out = [] then ['.'] else out

/-- Go's `filepath.Dir` on Unix: `Clean` of the path through its last separator. -/
def Dir (path : GoString) : GoString := Clean (throughLastSep path)

/-- Go's `filepath.FromSlash` and `filepath.ToSlash` on Unix: the identity. -/
def FromSlash (path : GoString) : GoString := path

/-- Go's `strings.Replace(s, old, new, -1)` for one-byte `old` and `new`:
every occurrence is replaced. -/
def ReplaceAll (s : GoString) (old new : Char) : GoString :=
  s.map (fun c => if c = old then new else c)

/-- Go's `strings.Join`. -/
def Join (elems : List GoString) (sep : GoString) : GoString :=
  match elems with
  | [] => []
  | e :: es => es.foldl (fun acc x => acc ++ sep ++ x) e

/-- Go's `strings.HasSuffix`. -/
def HasSuffix (s suffix : GoString) : Bool := suffix.isSuffixOf s

/-- Go's `strings.HasPrefix`, which is what `filepath.HasPrefix` is on Unix. -/
def HasPrefix (s pre : GoString) : Bool := pre.isPrefixOf s

/-- The cleaning loop run with exactly as much fuel as there is input. -/
def cleanRun (rooted : Bool) (rest out : GoString) (dd : Nat) : GoString :=
  cleanLoop rooted rest.length rest out dd

/-- A real path element: not empty, free of the separator, neither `.` nor `..`. -/
def RealElem (A : GoString) : Prop := A ≠ [] ∧ '/' ∉ A ∧ A ≠ ['.'] ∧ A ≠ ['.', '.']

instance (A : GoString) : Decidable (RealElem A) := by
  unfold RealElem
  infer_instance

/-- What the cleaning loop keeps true of its output buffer and `dotdot`. -/
def CleanInv (rooted : Bool) (out : GoString) (dd : Nat) : Prop :=
  dd ≤ out.length ∧ (rooted = true → 1 ≤ dd ∧ out.head? = some '/')

/-- The final step of `Clean`: an empty output becomes `.`. -/
def dotIfEmpty (out : GoString) : GoString := if out = [] then ['.'] else out

/-- Empty, or ending in a separator. -/
def EndsAtSep (P : GoString) : Prop := P = [] ∨ ∃ Z, P = Z ++ ['/']

/-- The segments of `s` between occurrences of `sep`: the result of Go's
`strings.Split(s, sep)` for a one-byte separator. -/
def splitOnByte (sep : Char) : GoString → List GoString
  | [] => [[]]
  | c :: s =>
    if c = sep then [] :: splitOnByte sep s
    else
      match splitOnByte sep s with
      | [] => [[c]]
      | seg :: segs => (c :: seg) :: segs

/-- Go's `filepath.Join` on Unix: the non-empty elements joined by the
separator, then `Clean`ed; empty if there is none. -/
def filepathJoin (elems : List GoString) : GoString :=
  match elems.filter (fun e => e ≠ []) with
  | [] => []
  | e :: es => Clean (Join (e :: es) ['/'])

end GoLib

namespace SyncRepo
open GoLib

/-- The separator constant `SLASH` of `main.go`. -/
def SLASH : GoString := ['/']

/-- Maven group, artifact, version, packaging and the optional classifier. -/
structure Gav where
  GroupID : GoString
  ArtifactID : GoString
  Version : GoString
  Packaging : GoString
  Classifier : GoString
  deriving DecidableEq, Repr

/-- The function `DefaultLayout(path string) Gav` of `main.go`.  `none` is a run-time panic
(an out-of-range slice expression). -/
def DefaultLayout (path : GoString) : Option Gav :=
  let filename := Base path
  let packaging := Ext filename
  let p1 := Dir path
  let version := Base p1
  let p2 := Dir p1
  let artifact := Base p2
  let p3 := Dir p2
  let group := FromSlash (Base p3)
  -- <artifact>-<version>-classifier.<packaging>
  let fromIndex := artifact.length + 1 + version.length
  let toIndex := filename.length - packaging.length
  (if fromIndex < toIndex then sliceBetween filename (fromIndex + 1) toIndex else some []).bind
    fun classifier =>
  (sliceFrom packaging 1).bind fun stripped =>
  some
    { GroupID := group
      ArtifactID := artifact
      Version := version
      Classifier := classifier
      Packaging := stripped }

/-- The method `func (g Gav) DefaultLayout() string` of `main.go`. -/
def Gav.DefaultLayout (g : Gav) : GoString :=
  let group := ReplaceAll g.GroupID '.' '/'
  let completeArtifact := g.ArtifactID ++ ['-'] ++ g.Version
  let completeArtifact :=
    if g.Classifier.length > 0 then completeArtifact ++ ['-'] ++ g.Classifier
    else completeArtifact
  Join [[], group, g.ArtifactID, g.Version, completeArtifact ++ ['.'] ++ g.Packaging] SLASH

/-- The optional `-<classifier>` part of a file name: empty when there is no
classifier. -/
def classifierSuffix (classifier : GoString) : GoString :=
  if classifier.length > 0 then '-' :: classifier else []

/-- The inputs of the round-trip property as the specification words them:
group, artifact, version and packaging are not empty, no field contains the
path separator, and the packaging contains no dot. -/
def RoundTripInput (g : Gav) : Prop :=
  g.GroupID ≠ [] ∧ g.ArtifactID ≠ [] ∧ g.Version ≠ [] ∧ g.Packaging ≠ [] ∧
    '/' ∉ g.GroupID ∧ '/' ∉ g.ArtifactID ∧ '/' ∉ g.Version ∧ '/' ∉ g.Classifier ∧
    '/' ∉ g.Packaging ∧ '.' ∉ g.Packaging

instance (g : Gav) : Decidable (RoundTripInput g) := by
  unfold RoundTripInput
  infer_instance

/-- One item of the local repository to sync against Nexus. -/
structure Artifact where
  Path : GoString
  Filename : GoString
  Gav : Gav
  NexusStatusCode : Nat
  deriving DecidableEq, Repr

/-- The function `consider(filename string) bool` of `main.go`. -/
def consider (filename : GoString) : Bool :=
  HasSuffix filename ['.', 'j', 'a', 'r'] || HasSuffix filename ['.', 'p', 'o', 'm']

/-! ### The local tree scanner (`filepath.Walk` with the callback of `main`) -/

/-- An entry of the local file system.  A directory lists its entries in the
order in which `readDirNames` returns them, that is sorted by name; `broken`
is an entry `lstat` fails on. -/
inductive Node where
  | file (name : GoString) (regular : Bool)
  | dir (name : GoString) (entries : List Node)
  | broken (name : GoString)
  deriving Repr

/-- The name of an entry (`fi.Name()`). -/
def Node.name : Node → GoString
  | .file n _ => n
  | .dir n _ => n
  | .broken n => n

/-- Whether an entry is a directory (`fi.IsDir()`). -/
def Node.isDir : Node → Bool
  | .dir _ _ => true
  | _ => false

/-- Whether an entry is a regular file (`fi.Mode().IsRegular()`). -/
def Node.isRegular : Node → Bool
  | .file _ r => r
  | _ => false

/-- The errors a `WalkFunc` returns in this program: `nil` and `filepath.SkipDir`. -/
inductive WalkErr where
  | nil
  | SkipDir
  deriving DecidableEq, Repr

/-- The result of `filepath.Rel(folder, filename)` for an entry reached from
`folder` through the directory entries `rel`: their names joined by the
separator, `.` for `folder` itself. -/
def relPath (rel : List GoString) : GoString :=
  if rel = [] then ['.'] else Join rel ['/']

/-- The callback `main` passes to `filepath.Walk`.  `err` says whether Walk
reports an error for the entry, `rel` is the way from `folder` to the entry
and `as` the artifacts collected so far.  `none` is a run-time panic inside
`DefaultLayout`. -/
def walkFn (folder : GoString) (rel : List GoString) (fi : Node) (err : Bool)
    (as : List Artifact) : Option (List Artifact × WalkErr) :=
  if err then
    -- Cannot visit: continue
    some (as, WalkErr.nil)
  else if HasPrefix fi.name ['.'] then
    -- Ignore hidden items such as Nexus cache, trash, ...
    some (as, WalkErr.SkipDir)
  else if fi.isRegular && consider fi.name then
    let a := relPath rel
    (DefaultLayout a).bind fun gav =>
      some (as ++ [{ Path := folder, Filename := a, Gav := gav, NexusStatusCode := 0 }],
        WalkErr.nil)
  else some (as, WalkErr.nil)

mutual
/-- The function `walk` of Go's `path/filepath`, called on an entry `lstat`
succeeded on. -/
def walk (folder : GoString) : Node → List GoString → List Artifact →
    Option (List Artifact × WalkErr)
  | .file n r, rel, as => walkFn folder rel (.file n r) false as
  | .broken n, rel, as => walkFn folder rel (.broken n) true as
  | .dir n entries, rel, as =>
    (walkFn folder rel (.dir n entries) false as).bind fun res =>
      if res.2 ≠ WalkErr.nil then some res
      else walkEntries folder entries rel res.1
/-- The loop `for _, name := range names` of `walk`. -/
def walkEntries (folder : GoString) : List Node → List GoString → List Artifact →
    Option (List Artifact × WalkErr)
  | [], _, as => some (as, WalkErr.nil)
  | .broken n :: rest, rel, as =>
    -- lstat failed: the callback is told, and whatever it returns is nil or SkipDir
    (walkFn folder (rel ++ [n]) (.broken n) true as).bind fun res =>
      walkEntries folder rest rel res.1
  | .file n r :: rest, rel, as =>
    (walk folder (.file n r) (rel ++ [n]) as).bind fun res =>
      -- if err != nil { if !fileInfo.IsDir() || err != SkipDir { return err } }
      if res.2 ≠ WalkErr.nil then some res
      else walkEntries folder rest rel res.1
  | .dir n es :: rest, rel, as =>
    (walk folder (.dir n es) (rel ++ [n]) as).bind fun res =>
      -- a directory that answers SkipDir is skipped, the loop goes on
      walkEntries folder rest rel res.1
end

/-- The call `filepath.Walk(folder, fn)` on the tree `root` found at `folder`: the
artifacts collected.  Walk turns a final `SkipDir` into `nil`. -/
def Walk (folder : GoString) (root : Node) (as : List Artifact) : Option (List Artifact) :=
  match root with
  | .broken n => (walkFn folder [] (.broken n) true as).map Prod.fst
  | node => (walk folder node [] as).map Prod.fst

/-- The loop `for _, folder := range flag.Args()` of `main`. -/
def scan : List (GoString × Node) → List Artifact → Option (List Artifact)
  | [], as => some as
  | (folder, root) :: rest, as => (Walk folder root as).bind (scan rest)

/-! ### The existence/upload protocol (second loop of `main`) -/

/-- The command-line flags of the sync tool. -/
structure Flags where
  servername : GoString
  port : GoString
  username : GoString
  password : GoString
  repository : GoString
  upload : Bool

/-- The request methods `main` uses: `http.MethodHead` and `http.MethodPut`. -/
inductive Method where
  | HEAD
  | PUT
  deriving DecidableEq, Repr

/-- An HTTP request as `main` builds it: method, URL, the basic-auth pair when
one was set, and the local file streamed as the body, if any. -/
structure Request where
  method : Method
  url : GoString
  basicAuth : Option (GoString × GoString)
  body : Option GoString
  deriving DecidableEq, Repr

/-- What the program's surroundings answer.  `newRequestFails url` says whether
`http.NewRequest` returns an error for `url`; `Do sent req` is the result of
`client.Do(req)` after the requests `sent`, `none` for a transport error and
`some code` for a response with that status code; `openFails name` says
whether `os.Open(name)` returns an error. -/
structure World where
  newRequestFails : GoString → Bool
  Do : List Request → Request → Option Nat
  openFails : GoString → Bool

/-- The constant `http.StatusOK`. -/
def StatusOK : Nat := 200
/-- The constant `http.StatusCreated`. -/
def StatusCreated : Nat := 201
/-- The constant `http.StatusNotFound`. -/
def StatusNotFound : Nat := 404

/-- What a run has done so far: the requests handed to `client.Do`, in order,
and the artifacts printed by `fmt.Printf("%+v\n", a)`, in order. -/
structure Run where
  requests : List Request
  printed : List Artifact
  deriving DecidableEq, Repr

/-- The URL `fmt.Sprintf("http://%s:%s/nexus/content/repositories/%s/%s", ...)`. -/
def artifactURL (f : Flags) (a : Artifact) : GoString :=
  "http://".toList ++ f.servername ++ ":".toList ++ f.port ++
    "/nexus/content/repositories/".toList ++ f.repository ++ "/".toList ++ FromSlash a.Filename

/-- The call `req.SetBasicAuth(*username, *password)` under the guard
`len(*username) > 0 && len(*password) > 0`. -/
def withAuth (f : Flags) (req : Request) : Request :=
  if f.username.length > 0 ∧ f.password.length > 0 then
    { req with basicAuth := some (f.username, f.password) }
  else req

/-- The HEAD request for an artifact. -/
def headRequest (f : Flags) (a : Artifact) : Request :=
  withAuth f { method := Method.HEAD, url := artifactURL f a, basicAuth := none, body := none }

/-- The PUT request for an artifact. -/
def putRequest (f : Flags) (a : Artifact) : Request :=
  withAuth f
    { method := Method.PUT, url := artifactURL f a, basicAuth := none
      body := some (filepathJoin [a.Path, a.Filename]) }

/-- The body of the loop `for _, a := range as` of `main`.  `Except.error r` is
`log.Fatal`: the process exits at once, `r` being what the run had done by
then; `Except.ok r` is the end of the iteration. -/
def processArtifact (f : Flags) (w : World) (r : Run) (a : Artifact) : Except Run Run :=
  -- HEAD
  if w.newRequestFails (artifactURL f a) then Except.error r
  else
    let r1 : Run := { r with requests := r.requests ++ [headRequest f a] }
    match w.Do r.requests (headRequest f a) with
    | none => Except.error r1
    | some status =>
      if status ≠ StatusNotFound ∧ status ≠ StatusOK then Except.error r1
      else
        let a1 : Artifact := { a with NexusStatusCode := status }
        -- PUT
        if a1.NexusStatusCode = StatusNotFound ∧ f.upload = true then
          if w.openFails (filepathJoin [a1.Path, a1.Filename]) then Except.error r1
          else
            let r2 : Run := { r1 with requests := r1.requests ++ [putRequest f a] }
            match w.Do r1.requests (putRequest f a) with
            | none => Except.error r2
            | some status2 =>
              if status2 ≠ StatusCreated then Except.error r2
              else
                let a2 : Artifact := { a1 with NexusStatusCode := status2 }
                Except.ok { r2 with printed := r2.printed ++ [a2] }
        else Except.ok { r1 with printed := r1.printed ++ [a1] }

/-- The loop `for _, a := range as` of `main`. -/
def syncLoop (f : Flags) (w : World) : List Artifact → Run → Except Run Run
  | [], r => Except.ok r
  | a :: as, r =>
    match processArtifact f w r a with
    | Except.ok r1 => syncLoop f w as r1
    | Except.error r1 => Except.error r1

/-- What a run had done when it ended, normally or by `log.Fatal`. -/
def finalRun : Except Run Run → Run
  | Except.ok r => r
  | Except.error r => r

/-- Whether a run ended by `log.Fatal`. -/
def aborted : Except Run Run → Bool
  | Except.ok _ => false
  | Except.error _ => true

/-! ### Sample inputs -/

/-- Flags with upload mode enabled. -/
def sampleFlags : Flags :=
  { servername := "localhost".toList, port := "8081".toList, username := "admin".toList
    password := "admin123".toList, repository := "releases".toList, upload := true }

/-- Flags with upload mode disabled. -/
def sampleFlagsNoUpload : Flags :=
  { servername := "localhost".toList, port := "8081".toList, username := "admin".toList
    password := "admin123".toList, repository := "releases".toList, upload := false }

/-- An artifact as the scanner records it. -/
def sampleArtifact (filename : GoString) : Artifact :=
  { Path := "repo".toList, Filename := filename
    Gav := ⟨[], [], [], [], []⟩, NexusStatusCode := 0 }

/-- A server that answers every request with the same status code. -/
def constWorld (status : Nat) : World :=
  { newRequestFails := fun _ => false, Do := fun _ _ => some status
    openFails := fun _ => false }

/-- A server that holds nothing and accepts nothing: 404 to HEAD, 403 to PUT. -/
def readOnlyWorld : World :=
  { newRequestFails := fun _ => false
    Do := fun _ req => if req.method = Method.HEAD then some 404 else some 403
    openFails := fun _ => false }

/-- A server that holds nothing and accepts everything: 404 to HEAD, 201 to PUT. -/
def emptyWorld : World :=
  { newRequestFails := fun _ => false
    Do := fun _ req => if req.method = Method.HEAD then some 404 else some 201
    openFails := fun _ => false }

end SyncRepo

namespace SfvUpload
open GoLib

/-- The separator constant `SLASH` of `sfv-upload.go`. -/
def SLASH : GoString := ['/']

/-- The `Gav` of `sfv-upload.go`. -/
structure Gav where
  GroupId : GoString
  ArtifactId : GoString
  Version : GoString
  Packaging : GoString
  Classifier : GoString
  deriving DecidableEq, Repr

/-- The method `func (g Gav) DefaultLayout() string` of `sfv-upload.go`. -/
def Gav.DefaultLayout (g : Gav) : GoString :=
  let group := ReplaceAll g.GroupId '.' '/'
  let completeArtifact := g.ArtifactId ++ ['-'] ++ g.Version
  let completeArtifact :=
    if g.Classifier.length > 0 then completeArtifact ++ ['-'] ++ g.Classifier
    else completeArtifact
  Join [[], group, g.ArtifactId, g.Version, completeArtifact ++ ['.'] ++ g.Packaging] SLASH

/-- One `notification` element of the report. -/
structure Notification where
  Id : Int
  Severity : GoString
  Message : GoString
  deriving DecidableEq, Repr

/-- The `report` element. -/
structure Report where
  ReturnValue : GoString
  HighestSeverity : GoString
  Notifications : List Notification
  deriving DecidableEq, Repr

/-- The `delivery` document. -/
structure Delivery where
  Report : Report
  deriving DecidableEq, Repr

/-- The loop "Determine return code" of `main`: `os.Exit(3)` on the first
notification whose severity is `ERROR` or `FATAL`; when the loop ends `main`
returns and the exit code is 0. -/
def determineReturnCode : List Notification → Nat
  | [] => 0
  | n :: ns =>
    if "ERROR".toList = n.Severity ∨ "FATAL".toList = n.Severity then 3
    else determineReturnCode ns

/-- The end of `main`, from "Show report results" on: the notifications
written to `writer`, one line each and in order, and the exit code. -/
def reportAndExit (delivery : Delivery) : List Notification × Nat :=
  (delivery.Report.Notifications, determineReturnCode delivery.Report.Notifications)

end SfvUpload

/-! ## Lemmas on the embedded library functions -/

namespace GoLib

theorem isPathSeparator_iff (c : Char) : IsPathSeparator c = true ↔ c = '/' := by
  simp [IsPathSeparator]

theorem isPathSeparator_slash : IsPathSeparator '/' = true := rfl

theorem isPathSeparator_of_ne {c : Char} (h : c ≠ '/') : IsPathSeparator c = false := by
  simp [IsPathSeparator, h]

theorem head_ne_of_not_mem {c : Char} {F : GoString} (h : '/' ∉ c :: F) : c ≠ '/' :=
  fun e => h (by simp [e])

theorem tail_not_mem {c : Char} {F : GoString} (h : '/' ∉ c :: F) : '/' ∉ F :=
  fun e => h (by simp [e])

/-- The embedded `Clean`, `Base`, `Dir` and `Ext` on the examples of the Go
documentation of `path/filepath`. -/
theorem filepath_documented_examples :
    (Clean "a//c".toList = "a/c".toList ∧ Clean "a/c/.".toList = "a/c".toList ∧
      Clean "a/c/b/..".toList = "a/c".toList ∧ Clean "/../a/c".toList = "/a/c".toList ∧
      Clean "/../a/b/../././/c".toList = "/a/c".toList ∧ Clean [] = ".".toList ∧
      Clean "../../a".toList = "../../a".toList) ∧
    (Base "/foo/bar/baz.js".toList = "baz.js".toList ∧ Base "/foo/bar/baz/".toList = "baz".toList ∧
      Base "../todo.txt".toList = "todo.txt".toList ∧ Base "..".toList = "..".toList ∧
      Base "/".toList = "/".toList ∧ Base [] = ".".toList) ∧
    (Dir "/foo/bar/baz.js".toList = "/foo/bar".toList ∧
      Dir "/foo/bar/baz/".toList = "/foo/bar/baz".toList ∧
      Dir "/dirty//path///".toList = "/dirty/path".toList ∧ Dir "dev.txt".toList = ".".toList ∧
      Dir "../todo.txt".toList = "..".toList ∧ Dir "..".toList = ".".toList ∧
      Dir "/".toList = "/".toList ∧ Dir [] = ".".toList) ∧
    (Ext "index".toList = [] ∧ Ext "index.js".toList = ".js".toList ∧
      Ext "main.test.js".toList = ".js".toList) := by
  decide

theorem takeWhile_notSep_append (F R : GoString) (hF : '/' ∉ F) :
    (F ++ '/' :: R).takeWhile (fun c => !IsPathSeparator c) = F := by
  induction F with
  | nil => simp [isPathSeparator_slash]
  | cons c F ih =>
    simp [List.takeWhile_cons, isPathSeparator_of_ne (head_ne_of_not_mem hF),
      ih (tail_not_mem hF)]

theorem dropWhile_notSep_append (F R : GoString) (hF : '/' ∉ F) :
    (F ++ '/' :: R).dropWhile (fun c => !IsPathSeparator c) = '/' :: R := by
  induction F with
  | nil => simp [isPathSeparator_slash]
  | cons c F ih =>
    simp [List.dropWhile_cons, isPathSeparator_of_ne (head_ne_of_not_mem hF),
      ih (tail_not_mem hF)]

theorem takeWhile_notSep_all (F : GoString) (hF : '/' ∉ F) :
    F.takeWhile (fun c => !IsPathSeparator c) = F := by
  induction F with
  | nil => rfl
  | cons c F ih =>
    simp [List.takeWhile_cons, isPathSeparator_of_ne (head_ne_of_not_mem hF),
      ih (tail_not_mem hF)]

theorem dropWhile_notSep_all (F : GoString) (hF : '/' ∉ F) :
    F.dropWhile (fun c => !IsPathSeparator c) = [] := by
  induction F with
  | nil => rfl
  | cons c F ih =>
    simp [List.dropWhile_cons, isPathSeparator_of_ne (head_ne_of_not_mem hF),
      ih (tail_not_mem hF)]

theorem throughLastSep_append (X F : GoString) (hF : '/' ∉ F) :
    throughLastSep (X ++ '/' :: F) = X ++ ['/'] := by
  have h : '/' ∉ F.reverse := by simpa using hF
  simp [throughLastSep, dropWhile_notSep_append _ _ h]

theorem throughLastSep_noSep (F : GoString) (hF : '/' ∉ F) : throughLastSep F = [] := by
  have h : '/' ∉ F.reverse := by simpa using hF
  simp [throughLastSep, dropWhile_notSep_all _ h]

theorem afterLastSep_append (X F : GoString) (hF : '/' ∉ F) :
    afterLastSep (X ++ '/' :: F) = F := by
  have h : '/' ∉ F.reverse := by simpa using hF
  simp [afterLastSep, takeWhile_notSep_append _ _ h]

theorem afterLastSep_noSep (F : GoString) (hF : '/' ∉ F) : afterLastSep F = F := by
  have h : '/' ∉ F.reverse := by simpa using hF
  simp [afterLastSep, takeWhile_notSep_all _ h]

/-- A string that does not end in a separator loses nothing in the first loop
of `Base`. -/
theorem stripTrailingSeps_append (X F : GoString) (hF : '/' ∉ F) (hne : F ≠ []) :
    stripTrailingSeps (X ++ F) = X ++ F := by
  obtain ⟨c, R, hR⟩ : ∃ c R, F.reverse = c :: R := by
    cases h : F.reverse with
    | nil => exact absurd (by simpa using h) hne
    | cons c R => exact ⟨c, R, rfl⟩
  have hc : c ≠ '/' := by
    intro h
    apply hF
    have : c ∈ F.reverse := by rw [hR]; simp
    simpa [h] using this
  have hF2 : F = R.reverse ++ [c] := by
    have := congrArg List.reverse hR
    simpa using this
  simp [stripTrailingSeps, hR, List.dropWhile_cons, isPathSeparator_of_ne hc, hF2]

/-- The function `Base` returns the last element of a path that ends in one. -/
theorem Base_append_elem (X F : GoString) (hF : '/' ∉ F) (hne : F ≠ []) :
    Base (X ++ '/' :: F) = F := by
  have h1 : stripTrailingSeps (X ++ '/' :: F) = X ++ '/' :: F := by
    have := stripTrailingSeps_append (X ++ ['/']) F hF hne
    simpa using this
  simp [Base, h1, afterLastSep_append _ _ hF, hne]

theorem Base_elem (F : GoString) (hF : '/' ∉ F) (hne : F ≠ []) : Base F = F := by
  have h1 : stripTrailingSeps F = F := by
    have := stripTrailingSeps_append [] F hF hne
    simpa using this
  simp [Base, h1, afterLastSep_noSep _ hF, hne]

theorem extScan_length_le (rev acc : GoString) :
    (extScan rev acc).length ≤ rev.length + acc.length := by
  induction rev generalizing acc with
  | nil => simp [extScan]
  | cons c rev ih =>
    simp only [extScan]
    split_ifs
    · simp
    · simp; omega
    · have := ih (c :: acc)
      simp at this ⊢
      omega

/-- The extension is a suffix of the name, so `len(filename) - len(packaging)`
in `DefaultLayout` is never negative. -/
theorem Ext_length_le (path : GoString) : (Ext path).length ≤ path.length := by
  have := extScan_length_le path.reverse []
  simpa [Ext] using this

theorem extScan_dot (Q R acc : GoString) (hd : '.' ∉ Q) (hs : '/' ∉ Q) :
    extScan (Q ++ '.' :: R) acc = '.' :: (Q.reverse ++ acc) := by
  induction Q generalizing acc with
  | nil => simp [extScan, IsPathSeparator]
  | cons q Q ih =>
    have hq1 : q ≠ '.' := fun e => hd (by simp [e])
    have hd2 : '.' ∉ Q := fun e => hd (by simp [e])
    simp [extScan, isPathSeparator_of_ne (head_ne_of_not_mem hs), hq1,
      ih (q :: acc) hd2 (tail_not_mem hs)]

/-- The extension of a name ending in `.P`, where `P` has no dot and no separator. -/
theorem Ext_append_dot (S P : GoString) (hd : '.' ∉ P) (hs : '/' ∉ P) :
    Ext (S ++ '.' :: P) = '.' :: P := by
  have h1 : '.' ∉ P.reverse := by simpa using hd
  have h2 : '/' ∉ P.reverse := by simpa using hs
  simp [Ext, extScan_dot _ _ _ h1 h2]

theorem copyElement_append (X t out : GoString) (hX : '/' ∉ X) :
    copyElement (X ++ '/' :: t) out = (out ++ X, '/' :: t) := by
  induction X generalizing out with
  | nil => simp [copyElement, isPathSeparator_slash]
  | cons c X ih =>
    simp [copyElement, isPathSeparator_of_ne (head_ne_of_not_mem hX), ih _ (tail_not_mem hX)]

theorem copyElement_length (l out : GoString) : (copyElement l out).2.length ≤ l.length := by
  induction l generalizing out with
  | nil => simp [copyElement]
  | cons c l ih =>
    simp only [copyElement]
    split_ifs
    · simp
    · have := ih (out ++ [c])
      simp
      omega

theorem copyElement_cons_length (c : Char) (l out : GoString)
    (hc : ¬IsPathSeparator c = true) : (copyElement (c :: l) out).2.length ≤ l.length := by
  have h : copyElement (c :: l) out = copyElement l (out ++ [c]) := by
    simp [copyElement, hc]
  rw [h]
  exact copyElement_length _ _

/-- Copying an element from an input that still contains a separator stops at
or before that separator. -/
theorem copyElement_split (X t out : GoString) :
    ∃ E R, copyElement (X ++ '/' :: t) out = (out ++ E, R ++ '/' :: t) ∧
      R.length ≤ X.length := by
  induction X generalizing out with
  | nil => exact ⟨[], [], by simp [copyElement, isPathSeparator_slash], by simp⟩
  | cons c X ih =>
    by_cases hc : IsPathSeparator c = true
    · exact ⟨[], c :: X, by simp [copyElement, hc], by simp⟩
    · obtain ⟨E, R, h, hl⟩ := ih (out ++ [c])
      refine ⟨c :: E, R, ?_, by simp; omega⟩
      simp [copyElement, hc, h]

/-- Fuel beyond the length of the unread input does not change the result of
the cleaning loop. -/
theorem cleanLoop_fuel (rooted : Bool) (n m : Nat) (rest out : GoString) (dd : Nat)
    (hn : rest.length ≤ n) (hm : rest.length ≤ m) :
    cleanLoop rooted n rest out dd = cleanLoop rooted m rest out dd := by
  induction n generalizing m rest out dd with
  | zero =>
    have : rest = [] := by simpa using hn
    subst this
    cases m <;> simp [cleanLoop]
  | succ n ih =>
    cases m with
    | zero =>
      have : rest = [] := by simpa using hm
      subst this
      simp [cleanLoop]
    | succ m =>
      cases rest with
      | nil => simp [cleanLoop]
      | cons c rest =>
        simp only [List.length_cons, Nat.add_le_add_iff_right] at hn hm
        have ht : rest.tail.length ≤ rest.length := by simp
        simp only [cleanLoop]
        by_cases h1 : IsPathSeparator c = true
        · simp only [h1, if_true]
          exact ih _ _ _ _ hn hm
        · have hl := copyElement_cons_length c rest (addSlashIfNeeded rooted out) h1
          simp only [h1]
          split_ifs <;> exact ih _ _ _ _ (by omega) (by omega)

theorem cleanRun_nil (rooted : Bool) (out : GoString) (dd : Nat) :
    cleanRun rooted [] out dd = out := by
  simp [cleanRun, cleanLoop]

theorem cleanLoop_eq_run (rooted : Bool) (n : Nat) (rest out : GoString) (dd : Nat)
    (hn : rest.length ≤ n) : cleanLoop rooted n rest out dd = cleanRun rooted rest out dd :=
  cleanLoop_fuel rooted n rest.length rest out dd hn (Nat.le_refl _)

/-- One iteration of the cleaning loop, fuel-free. -/
theorem cleanRun_cons (rooted : Bool) (c : Char) (rest out : GoString) (dd : Nat) :
    cleanRun rooted (c :: rest) out dd =
      if IsPathSeparator c then cleanRun rooted rest out dd
      else if c = '.' ∧ atEndOrSep rest then cleanRun rooted rest out dd
      else if c = '.' ∧ rest.head? = some '.' ∧ atEndOrSep rest.tail then
        if out.length > dd then cleanRun rooted rest.tail (backtrack out dd) dd
        else if !rooted then
          cleanRun rooted rest.tail
            ((if out.length > 0 then out ++ ['/'] else out) ++ ['.', '.'])
            ((if out.length > 0 then out ++ ['/'] else out) ++ ['.', '.']).length
        else cleanRun rooted rest.tail out dd
      else
        cleanRun rooted (copyElement (c :: rest) (addSlashIfNeeded rooted out)).2
          (copyElement (c :: rest) (addSlashIfNeeded rooted out)).1 dd := by
  have ht : rest.tail.length ≤ rest.length := by simp
  conv_lhs => simp only [cleanRun, List.length_cons, cleanLoop]
  by_cases h1 : IsPathSeparator c = true
  · simp only [h1, if_true]
    exact cleanLoop_eq_run _ _ _ _ _ (Nat.le_refl _)
  · have hl := copyElement_cons_length c rest (addSlashIfNeeded rooted out) h1
    simp only [h1]
    split_ifs <;> exact cleanLoop_eq_run _ _ _ _ _ (by omega)

theorem cleanRun_sep (rooted : Bool) (t out : GoString) (dd : Nat) :
    cleanRun rooted ('/' :: t) out dd = cleanRun rooted t out dd := by
  rw [cleanRun_cons]
  simp [isPathSeparator_slash]

/-- The loop copies a real element followed by a separator to the output,
with a separator in front of it when the output already holds an element. -/
theorem cleanRun_real (rooted : Bool) (A t out : GoString) (dd : Nat) (hA : RealElem A) :
    cleanRun rooted (A ++ '/' :: t) out dd =
      cleanRun rooted t (addSlashIfNeeded rooted out ++ A) dd := by
  obtain ⟨hne, hs, h1, h2⟩ := hA
  cases A with
  | nil => exact absurd rfl hne
  | cons a A =>
    have ha : IsPathSeparator a = false := isPathSeparator_of_ne (head_ne_of_not_mem hs)
    have hA2 : '/' ∉ A := tail_not_mem hs
    have c2 : ¬(a = '.' ∧ atEndOrSep (A ++ '/' :: t) = true) := by
      rintro ⟨e, h⟩
      cases A with
      | nil => exact h1 (by rw [e])
      | cons b B =>
        simp [atEndOrSep, isPathSeparator_of_ne (head_ne_of_not_mem hA2)] at h
    have c3 : ¬(a = '.' ∧ (A ++ '/' :: t).head? = some '.' ∧
        atEndOrSep (A ++ '/' :: t).tail = true) := by
      rintro ⟨e, hh, h⟩
      cases A with
      | nil => simp at hh
      | cons b B =>
        have eb : b = '.' := by simpa using hh
        cases B with
        | nil => exact h2 (by rw [e, eb])
        | cons d D =>
          have hd : d ≠ '/' := head_ne_of_not_mem (tail_not_mem hA2)
          simp [atEndOrSep, isPathSeparator_of_ne hd] at h
    rw [List.cons_append, cleanRun_cons]
    simp only [ha, c2, c3, if_false, Bool.false_eq_true]
    rw [← List.cons_append, copyElement_append _ _ _ hs]
    exact cleanRun_sep _ _ _ _

theorem backtrackLoop_suffix (dd : Nat) (rev : GoString) (c : Char) :
    ∃ pre, rev = pre ++ backtrackLoop dd rev c ∧
      min dd rev.length ≤ (backtrackLoop dd rev c).length := by
  induction rev generalizing c with
  | nil => exact ⟨[], by simp [backtrackLoop], by simp [backtrackLoop]⟩
  | cons x rev ih =>
    by_cases h : (x :: rev).length > dd ∧ (!IsPathSeparator c) = true
    · obtain ⟨pre, h1, h2⟩ := ih x
      have e : backtrackLoop dd (x :: rev) c = backtrackLoop dd rev x := by
        rw [backtrackLoop, if_pos h]
      rw [e]
      refine ⟨x :: pre, ?_, ?_⟩
      · rw [List.cons_append, ← h1]
      · have := h.1
        simp only [List.length_cons] at this ⊢
        omega
    · have e : backtrackLoop dd (x :: rev) c = x :: rev := by
        rw [backtrackLoop, if_neg h]
      rw [e]
      exact ⟨[], by simp, by simp⟩

/-- Backtracking over a `..` element keeps a prefix of the output buffer that
is at least `dotdot` bytes long. -/
theorem backtrack_initial (out : GoString) (dd : Nat) (h : dd < out.length) :
    ∃ suf, out = backtrack out dd ++ suf ∧ dd ≤ (backtrack out dd).length := by
  cases hr : out.reverse with
  | nil =>
    have : out = [] := by simpa using hr
    subst this
    simp at h
  | cons c rev =>
    have ho : out = rev.reverse ++ [c] := by
      have := congrArg List.reverse hr
      simpa using this
    obtain ⟨pre, h1, h2⟩ := backtrackLoop_suffix dd rev c
    have hb : backtrack out dd = (backtrackLoop dd rev c).reverse := by
      simp [backtrack, hr]
    have hl : rev.length + 1 = out.length := by rw [ho]; simp
    refine ⟨pre.reverse ++ [c], ?_, ?_⟩
    · rw [hb, ho]
      conv_lhs => rw [h1]
      simp
    · rw [hb]
      simp only [List.length_reverse]
      omega

theorem CleanInv_append {rooted : Bool} {out : GoString} {dd : Nat}
    (h : CleanInv rooted out dd) (suf : GoString) : CleanInv rooted (out ++ suf) dd := by
  refine ⟨by have := h.1; simp; omega, fun hr => ?_⟩
  obtain ⟨h1, h2⟩ := h.2 hr
  refine ⟨h1, ?_⟩
  cases out with
  | nil => simp at h2
  | cons a out => simpa using h2

theorem addSlashIfNeeded_eq (rooted : Bool) (out : GoString) :
    ∃ s, addSlashIfNeeded rooted out = out ++ s := by
  unfold addSlashIfNeeded
  split_ifs
  · exact ⟨['/'], rfl⟩
  · exact ⟨[], by simp⟩

theorem CleanInv_backtrack {rooted : Bool} {out : GoString} {dd : Nat}
    (h : CleanInv rooted out dd) (hlt : dd < out.length) :
    CleanInv rooted (backtrack out dd) dd := by
  obtain ⟨suf, h1, h2⟩ := backtrack_initial out dd hlt
  refine ⟨h2, fun hr => ?_⟩
  obtain ⟨h3, h4⟩ := h.2 hr
  refine ⟨h3, ?_⟩
  cases hb : backtrack out dd with
  | nil => rw [hb] at h2; simp at h2; omega
  | cons a b =>
    rw [h1, hb] at h4
    simpa using h4

/-- Whatever precedes a separator in the input, the loop gets past it in a
state that satisfies the invariant. -/
theorem cleanRun_past_sep (rooted : Bool) (n : Nat) (X t out : GoString) (dd : Nat)
    (hn : X.length ≤ n) (hinv : CleanInv rooted out dd) :
    ∃ out2 dd2, CleanInv rooted out2 dd2 ∧
      cleanRun rooted (X ++ '/' :: t) out dd = cleanRun rooted t out2 dd2 := by
  induction n generalizing X out dd with
  | zero =>
    have : X = [] := by simpa using hn
    subst this
    exact ⟨out, dd, hinv, cleanRun_sep _ _ _ _⟩
  | succ n ih =>
    cases X with
    | nil => exact ⟨out, dd, hinv, cleanRun_sep _ _ _ _⟩
    | cons c X =>
      simp only [List.length_cons, Nat.add_le_add_iff_right] at hn
      rw [List.cons_append, cleanRun_cons]
      by_cases h1 : IsPathSeparator c = true
      · simp only [h1, if_true]
        exact ih X out dd hn hinv
      · simp only [h1, if_false]
        by_cases h2 : c = '.' ∧ atEndOrSep (X ++ '/' :: t) = true
        · simp only [h2, and_self, if_true]
          exact ih X out dd hn hinv
        · simp only [h2, if_false]
          by_cases h3 : c = '.' ∧ (X ++ '/' :: t).head? = some '.' ∧
              atEndOrSep (X ++ '/' :: t).tail = true
          · simp only [h3, and_self, if_true]
            cases X with
            | nil => simp at h3
            | cons b Y =>
              simp only [List.length_cons] at hn
              simp only [List.cons_append, List.tail_cons]
              by_cases h4 : out.length > dd
              · simp only [h4, if_true]
                exact ih Y _ dd (by omega) (CleanInv_backtrack hinv h4)
              · simp only [h4, if_false]
                cases rooted with
                | true => exact ih Y out dd (by omega) hinv
                | false =>
                  exact ih Y _ _ (by omega) ⟨Nat.le_refl _, fun hr => by simp at hr⟩
          · simp only [h3, if_false]
            have hc : copyElement (c :: (X ++ '/' :: t)) (addSlashIfNeeded rooted out) =
                copyElement (X ++ '/' :: t) (addSlashIfNeeded rooted out ++ [c]) := by
              simp [copyElement, h1]
            obtain ⟨E, R, hE, hR⟩ :=
              copyElement_split X t (addSlashIfNeeded rooted out ++ [c])
            rw [hc, hE]
            obtain ⟨s, hs⟩ := addSlashIfNeeded_eq rooted out
            refine ih R _ dd (by omega) ?_
            rw [hs, List.append_assoc, List.append_assoc]
            exact CleanInv_append hinv _

theorem dotIfEmpty_of_ne {out : GoString} (h : out ≠ []) : dotIfEmpty out = out := by
  simp [dotIfEmpty, h]

theorem Clean_rooted (t : GoString) :
    Clean ('/' :: t) = dotIfEmpty (cleanRun true t ['/'] 1) := by
  simp only [Clean, isPathSeparator_slash, if_true, dotIfEmpty]
  rw [cleanLoop_eq_run _ _ _ _ _ (by simp)]

theorem Clean_unrooted (c : Char) (t : GoString) (hc : c ≠ '/') :
    Clean (c :: t) = dotIfEmpty (cleanRun false (c :: t) [] 0) := by
  simp only [Clean, isPathSeparator_of_ne hc, dotIfEmpty]
  rfl

/-- A path that begins with a real element: `Clean` starts by copying it. -/
theorem Clean_elem_start (A t : GoString) (hA : RealElem A) :
    Clean (A ++ '/' :: t) = dotIfEmpty (cleanRun false t A 0) := by
  obtain ⟨a, B, rfl⟩ : ∃ a B, A = a :: B := by
    cases A with
    | nil => exact absurd rfl hA.1
    | cons a B => exact ⟨a, B, rfl⟩
  rw [List.cons_append, Clean_unrooted _ _ (head_ne_of_not_mem hA.2.1), ← List.cons_append,
    cleanRun_real _ _ _ _ _ hA]
  simp [addSlashIfNeeded]

/-- Whatever precedes a separator in a path, `Clean` gets past it in a state
that satisfies the invariant. -/
theorem Clean_past_sep (X t : GoString) :
    ∃ rooted out dd, CleanInv rooted out dd ∧
      Clean (X ++ '/' :: t) = dotIfEmpty (cleanRun rooted t out dd) := by
  have h0 : CleanInv true ['/'] 1 := ⟨by simp, fun _ => ⟨Nat.le_refl _, rfl⟩⟩
  have h1 : CleanInv false [] 0 := ⟨by simp, fun h => by simp at h⟩
  cases X with
  | nil => exact ⟨true, ['/'], 1, h0, Clean_rooted t⟩
  | cons c X =>
    by_cases hc : c = '/'
    · subst hc
      obtain ⟨out, dd, hi, he⟩ := cleanRun_past_sep true X.length X t ['/'] 1 (Nat.le_refl _) h0
      exact ⟨true, out, dd, hi, by rw [List.cons_append, Clean_rooted, he]⟩
    · obtain ⟨out, dd, hi, he⟩ :=
        cleanRun_past_sep false (c :: X).length (c :: X) t [] 0 (Nat.le_refl _) h1
      exact ⟨false, out, dd, hi, by rw [List.cons_append, Clean_unrooted _ _ hc,
        ← List.cons_append, he]⟩

theorem addSlashIfNeeded_endsAtSep {rooted : Bool} {out : GoString} {dd : Nat}
    (h : CleanInv rooted out dd) : EndsAtSep (addSlashIfNeeded rooted out) := by
  cases rooted with
  | true =>
    obtain ⟨_, hh⟩ := h.2 rfl
    by_cases hl : out.length = 1
    · have : out = ['/'] := by
        match out, hl, hh with
        | [a], _, hh => simpa using hh
      subst this
      exact Or.inr ⟨[], by simp [addSlashIfNeeded]⟩
    · exact Or.inr ⟨out, by simp [addSlashIfNeeded, hl]⟩
  | false =>
    by_cases hl : out.length = 0
    · have : out = [] := by simpa using hl
      subst this
      exact Or.inl (by simp [addSlashIfNeeded])
    · exact Or.inr ⟨out, by simp [addSlashIfNeeded, hl]⟩

theorem addSlashIfNeeded_of_length (rooted : Bool) (Q : GoString)
    (h : 2 ≤ Q.length ∨ (rooted = false ∧ 1 ≤ Q.length)) :
    addSlashIfNeeded rooted Q = Q ++ ['/'] := by
  cases rooted with
  | true =>
    have h3 : Q.length ≠ 1 := by
      rcases h with h | ⟨h, _⟩
      · omega
      · simp at h
    simp [addSlashIfNeeded, h3]
  | false =>
    have h2 : Q.length ≠ 0 := by
      rcases h with h | ⟨_, h⟩ <;> omega
    simp [addSlashIfNeeded, h2]

theorem addSlashIfNeeded_after_elem {rooted : Bool} {out : GoString} {dd : Nat}
    (h : CleanInv rooted out dd) (A : GoString) (hA : A ≠ []) :
    addSlashIfNeeded rooted (addSlashIfNeeded rooted out ++ A) =
      addSlashIfNeeded rooted out ++ A ++ ['/'] := by
  obtain ⟨s, hs⟩ := addSlashIfNeeded_eq rooted out
  have hAl : 0 < A.length := List.length_pos.mpr hA
  apply addSlashIfNeeded_of_length
  rw [hs]
  simp only [List.length_append]
  cases rooted with
  | true =>
    obtain ⟨_, hh⟩ := h.2 rfl
    have : 0 < out.length := by
      cases out with
      | nil => simp at hh
      | cons a b => simp
    left; omega
  | false => right; exact ⟨rfl, by omega⟩

/-- The result of `Clean` on `X/A/V/` ends in the elements `A/V`. -/
theorem Clean_two_elems (X A V : GoString) (hA : RealElem A) (hV : RealElem V) :
    ∃ P, EndsAtSep P ∧ Clean (X ++ '/' :: (A ++ '/' :: (V ++ ['/']))) = P ++ A ++ '/' :: V := by
  obtain ⟨rooted, out, dd, hi, he⟩ := Clean_past_sep X (A ++ '/' :: (V ++ ['/']))
  refine ⟨addSlashIfNeeded rooted out, addSlashIfNeeded_endsAtSep hi, ?_⟩
  rw [he, cleanRun_real _ _ _ _ _ hA, cleanRun_real _ _ _ _ _ hV, cleanRun_nil,
    addSlashIfNeeded_after_elem hi A hA.1]
  rw [dotIfEmpty_of_ne (by simp)]
  simp

/-- The result of `Clean` on `Y A/`, where `Y` is empty or ends in a separator,
ends in the element `A`. -/
theorem Clean_one_elem (Y A : GoString) (hY : EndsAtSep Y) (hA : RealElem A) :
    ∃ P, EndsAtSep P ∧ Clean (Y ++ (A ++ ['/'])) = P ++ A := by
  rcases hY with rfl | ⟨Z, rfl⟩
  · refine ⟨[], Or.inl rfl, ?_⟩
    rw [List.nil_append, Clean_elem_start _ _ hA, cleanRun_nil, dotIfEmpty_of_ne hA.1]
    rfl
  · obtain ⟨rooted, out, dd, hi, he⟩ := Clean_past_sep Z (A ++ ['/'])
    refine ⟨addSlashIfNeeded rooted out, addSlashIfNeeded_endsAtSep hi, ?_⟩
    have e : Z ++ ['/'] ++ (A ++ ['/']) = Z ++ '/' :: (A ++ ['/']) := by simp
    rw [e, he, cleanRun_real _ _ _ _ _ hA, cleanRun_nil]
    exact dotIfEmpty_of_ne (by simp [hA.1])

theorem Base_endsAtSep (P A : GoString) (hP : EndsAtSep P) (hs : '/' ∉ A) (hne : A ≠ []) :
    Base (P ++ A) = A := by
  rcases hP with rfl | ⟨Z, rfl⟩
  · simpa using Base_elem A hs hne
  · have := Base_append_elem Z A hs hne
    simpa using this

end GoLib

namespace SyncRepo
open GoLib

theorem slice_mid (L S R : GoString) (hS : S ≠ []) :
    sliceBetween (L ++ (S ++ R)) (L.length + 1) (L.length + S.length) = some S.tail := by
  cases S with
  | nil => exact absurd rfl hS
  | cons c S =>
    have h1 : L.length + 1 ≤ L.length + (c :: S).length ∧
        L.length + (c :: S).length ≤ (L ++ (c :: S ++ R)).length := by
      simp
    have h2 : (L ++ (c :: S ++ R)).drop (L.length + 1) = S ++ R := by
      rw [List.drop_append]
      simp
    have h3 : L.length + (c :: S).length - (L.length + 1) = S.length := by
      simp only [List.length_cons]; omega
    rw [sliceBetween, if_pos h1, h2, h3]
    simp

/-- The filename `A-V S.P` of the default layout is free of the separator. -/
theorem filename_noSep {A V S P : GoString} (hA : '/' ∉ A) (hV : '/' ∉ V) (hS : '/' ∉ S)
    (hP : '/' ∉ P) : '/' ∉ A ++ '-' :: (V ++ (S ++ '.' :: P)) := by
  simp [hA, hV, hS, hP]

/-- Decoding a path `X/A/V/A-V S.P`: artifact, version and packaging are read
back, and the classifier is `S` without its first byte. -/
theorem DefaultLayout_layout (X A V S P : GoString) (hA : RealElem A) (hV : RealElem V)
    (hS : '/' ∉ S) (hP1 : '.' ∉ P) (hP2 : '/' ∉ P) :
    DefaultLayout (X ++ '/' :: (A ++ '/' :: (V ++ '/' :: (A ++ '-' :: (V ++ (S ++ '.' :: P)))))) =
      some
        { GroupID := Base (Dir (Dir (Dir
            (X ++ '/' :: (A ++ '/' :: (V ++ '/' :: (A ++ '-' :: (V ++ (S ++ '.' :: P)))))))))
          ArtifactID := A
          Version := V
          Packaging := P
          Classifier := S.tail } := by
  have hF := filename_noSep hA.2.1 hV.2.1 hS hP2
  have hFne : A ++ '-' :: (V ++ (S ++ '.' :: P)) ≠ [] := by simp [hA.1]
  generalize hFdef : A ++ '-' :: (V ++ (S ++ '.' :: P)) = F at hF hFne ⊢
  have hpath : X ++ '/' :: (A ++ '/' :: (V ++ '/' :: F)) =
      (X ++ '/' :: (A ++ '/' :: V)) ++ '/' :: F := by simp
  generalize hpdef : X ++ '/' :: (A ++ '/' :: (V ++ '/' :: F)) = path at hpath ⊢
  -- filename and packaging
  have hfile : Base path = F := by rw [hpath]; exact Base_append_elem _ _ hF hFne
  have hext : Ext F = '.' :: P := by
    rw [← hFdef]
    have := Ext_append_dot (A ++ '-' :: (V ++ S)) P hP1 hP2
    simpa using this
  -- version
  obtain ⟨P1, hP1ok, hc1⟩ := Clean_two_elems X A V hA hV
  have hp1 : Dir path = P1 ++ A ++ '/' :: V := by
    rw [Dir, hpath, throughLastSep_append _ _ hF, ← hc1]
    simp
  have hver : Base (P1 ++ A ++ '/' :: V) = V := Base_append_elem _ _ hV.2.1 hV.1
  -- artifact
  obtain ⟨P2, hP2ok, hc2⟩ := Clean_one_elem P1 A hP1ok hA
  have hp2 : Dir (P1 ++ A ++ '/' :: V) = P2 ++ A := by
    rw [Dir, throughLastSep_append _ _ hV.2.1, ← hc2]
    simp
  have hart : Base (P2 ++ A) = A := Base_endsAtSep _ _ hP2ok hA.2.1 hA.1
  -- classifier
  have hlen : F.length - ('.' :: P).length = (A ++ '-' :: V).length + S.length := by
    rw [← hFdef]; simp; omega
  have hfrom : A.length + 1 + V.length = (A ++ '-' :: V).length := by simp; omega
  have hF2 : F = (A ++ '-' :: V) ++ (S ++ '.' :: P) := by rw [← hFdef]; simp
  have hcls : (if A.length + 1 + V.length < F.length - ('.' :: P).length then
      sliceBetween F (A.length + 1 + V.length + 1) (F.length - ('.' :: P).length) else some []) =
      some S.tail := by
    rw [hlen, hfrom]
    by_cases hSe : S = []
    · subst hSe; simp
    · have : 0 < S.length := List.length_pos.mpr hSe
      rw [if_pos (by omega), hF2]
      exact slice_mid _ _ _ hSe
  simp only [DefaultLayout, hfile, hext, hp1, hver, hp2, hart, hcls, FromSlash]
  simp [sliceFrom]

end SyncRepo


namespace SyncRepo
open GoLib

/-- The encoder written out as one concatenation. -/
theorem encode_eq (g : Gav) :
    g.DefaultLayout = '/' :: (ReplaceAll g.GroupID '.' '/' ++ '/' :: (g.ArtifactID ++
      '/' :: (g.Version ++ '/' :: (g.ArtifactID ++ '-' :: (g.Version ++
        (classifierSuffix g.Classifier ++ '.' :: g.Packaging)))))) := by
  unfold Gav.DefaultLayout classifierSuffix
  by_cases h : g.Classifier.length > 0 <;> simp [Join, SLASH, h]

theorem classifierSuffix_tail (C : GoString) : (classifierSuffix C).tail = C := by
  unfold classifierSuffix
  cases C <;> simp

theorem classifierSuffix_noSep {C : GoString} (h : '/' ∉ C) : '/' ∉ classifierSuffix C := by
  unfold classifierSuffix
  split_ifs <;> simp [h]

theorem Clean_rooted_one (g : GoString) (hg : RealElem g) :
    Clean ('/' :: (g ++ ['/'])) = '/' :: g := by
  rw [Clean_rooted, cleanRun_real _ _ _ _ _ hg, cleanRun_nil]
  simp [addSlashIfNeeded, dotIfEmpty]

theorem Clean_rooted_two (g A : GoString) (hg : RealElem g) (hA : RealElem A) :
    Clean ('/' :: (g ++ '/' :: (A ++ ['/']))) = '/' :: (g ++ '/' :: A) := by
  have hl : 0 < g.length := List.length_pos.mpr hg.1
  rw [Clean_rooted, cleanRun_real _ _ _ _ _ hg, cleanRun_real _ _ _ _ _ hA, cleanRun_nil]
  have e1 : addSlashIfNeeded true ['/'] = ['/'] := by simp [addSlashIfNeeded]
  rw [e1, addSlashIfNeeded_of_length _ _ (Or.inl (by simp; omega))]
  simp [dotIfEmpty]

theorem Clean_rooted_three (g A V : GoString) (hg : RealElem g) (hA : RealElem A)
    (hV : RealElem V) :
    Clean ('/' :: (g ++ '/' :: (A ++ '/' :: (V ++ ['/'])))) =
      '/' :: (g ++ '/' :: (A ++ '/' :: V)) := by
  have hl : 0 < g.length := List.length_pos.mpr hg.1
  rw [Clean_rooted, cleanRun_real _ _ _ _ _ hg, cleanRun_real _ _ _ _ _ hA,
    cleanRun_real _ _ _ _ _ hV, cleanRun_nil]
  have e1 : addSlashIfNeeded true ['/'] = ['/'] := by simp [addSlashIfNeeded]
  rw [e1, addSlashIfNeeded_of_length _ (['/'] ++ g) (Or.inl (by simp; omega)),
    addSlashIfNeeded_of_length _ _ (Or.inl (by simp; omega))]
  simp [dotIfEmpty]

/-- The group read back from `/g/A/V/F` when the group directory `g` is a
single real element. -/
theorem group_of_rooted (g A V F : GoString) (hg : RealElem g) (hA : RealElem A)
    (hV : RealElem V) (hF : '/' ∉ F) :
    Base (Dir (Dir (Dir ('/' :: (g ++ '/' :: (A ++ '/' :: (V ++ '/' :: F))))))) = g := by
  have e1 : '/' :: (g ++ '/' :: (A ++ '/' :: (V ++ '/' :: F))) =
      ('/' :: (g ++ '/' :: (A ++ '/' :: V))) ++ '/' :: F := by simp
  have d1 : Dir ('/' :: (g ++ '/' :: (A ++ '/' :: (V ++ '/' :: F)))) =
      '/' :: (g ++ '/' :: (A ++ '/' :: V)) := by
    rw [Dir, e1, throughLastSep_append _ _ hF]
    simpa using Clean_rooted_three g A V hg hA hV
  have e2 : '/' :: (g ++ '/' :: (A ++ '/' :: V)) = ('/' :: (g ++ '/' :: A)) ++ '/' :: V := by
    simp
  have d2 : Dir ('/' :: (g ++ '/' :: (A ++ '/' :: V))) = '/' :: (g ++ '/' :: A) := by
    rw [Dir, e2, throughLastSep_append _ _ hV.2.1]
    simpa using Clean_rooted_two g A hg hA
  have e3 : '/' :: (g ++ '/' :: A) = ('/' :: g) ++ '/' :: A := by simp
  have d3 : Dir ('/' :: (g ++ '/' :: A)) = '/' :: g := by
    rw [Dir, e3, throughLastSep_append _ _ hA.2.1]
    simpa using Clean_rooted_one g hg
  rw [d1, d2, d3]
  exact Base_append_elem [] g hg.2.1 hg.1

theorem replaceAll_noDot (G : GoString) (h : '.' ∉ G) : ReplaceAll G '.' '/' = G := by
  unfold ReplaceAll
  induction G with
  | nil => rfl
  | cons c G ih =>
    have hc : c ≠ '.' := fun e => h (by simp [e])
    have hG : '.' ∉ G := fun e => h (by simp [e])
    simp [hc, ih hG]

/-- A group without dot or separator that is not empty is a real element. -/
theorem realElem_of_noDot {G : GoString} (h0 : G ≠ []) (h1 : '/' ∉ G) (h2 : '.' ∉ G) :
    RealElem G :=
  ⟨h0, h1, fun e => h2 (by simp [e]), fun e => h2 (by simp [e])⟩

/-- What decoding an encoded GAV yields: artifact, version, packaging and
classifier are those of the GAV, the group is whatever `Base` finds three
directories up. -/
theorem decode_encode (g : Gav) (hA : RealElem g.ArtifactID) (hV : RealElem g.Version)
    (hC : '/' ∉ g.Classifier) (hP1 : '.' ∉ g.Packaging) (hP2 : '/' ∉ g.Packaging) :
    DefaultLayout g.DefaultLayout =
      some
        { GroupID := Base (Dir (Dir (Dir g.DefaultLayout)))
          ArtifactID := g.ArtifactID
          Version := g.Version
          Packaging := g.Packaging
          Classifier := g.Classifier } := by
  have h := DefaultLayout_layout ('/' :: ReplaceAll g.GroupID '.' '/') g.ArtifactID g.Version
    (classifierSuffix g.Classifier) g.Packaging hA hV (classifierSuffix_noSep hC) hP1 hP2
  rw [classifierSuffix_tail] at h
  rw [encode_eq]
  simpa using h

end SyncRepo

/-! ## The claims about the coordinate codec -/

namespace SyncRepo
open GoLib

/-- C1 (counterexample): the round trip loses the leading group components.
The GAV `com.acme:widget:1.0.0:jar` satisfies every condition of the claim, its
encoding decodes to a GAV whose GroupID is `acme`, not `com.acme`.  The round
trip also fails when a directory name is `..`: the GAV `acme:widget:..:jar`
satisfies the conditions and decodes to group `/`, artifact `/`, version
`acme`, classifier `..`. -/
theorem C1_roundtrip_counterexample :
    (RoundTripInput ⟨"com.acme".toList, "widget".toList, "1.0.0".toList, "jar".toList, []⟩ ∧
      DefaultLayout (Gav.DefaultLayout
          ⟨"com.acme".toList, "widget".toList, "1.0.0".toList, "jar".toList, []⟩) =
        some ⟨"acme".toList, "widget".toList, "1.0.0".toList, "jar".toList, []⟩ ∧
      DefaultLayout (Gav.DefaultLayout
          ⟨"com.acme".toList, "widget".toList, "1.0.0".toList, "jar".toList, []⟩) ≠
        some ⟨"com.acme".toList, "widget".toList, "1.0.0".toList, "jar".toList, []⟩) ∧
    (RoundTripInput ⟨"acme".toList, "widget".toList, "..".toList, "jar".toList, []⟩ ∧
      DefaultLayout (Gav.DefaultLayout
          ⟨"acme".toList, "widget".toList, "..".toList, "jar".toList, []⟩) =
        some ⟨"/".toList, "/".toList, "acme".toList, "jar".toList, "..".toList⟩) := by
  decide

/-- C1 (amended): for every GAV whose group, artifact, version and packaging
are not empty, whose fields contain no path separator, whose packaging
contains no dot and whose artifact and version are neither `.` nor `..`,
decoding the encoded path does not fail and yields the artifact, version,
packaging and classifier of the GAV; when the group contains no dot the
decoded GAV equals the original in all five fields. -/
theorem C1_roundtrip_amended (g : Gav) (h : RoundTripInput g)
    (hA : g.ArtifactID ≠ ['.'] ∧ g.ArtifactID ≠ ['.', '.'])
    (hV : g.Version ≠ ['.'] ∧ g.Version ≠ ['.', '.']) :
    ∃ d, DefaultLayout g.DefaultLayout = some d ∧
      d.ArtifactID = g.ArtifactID ∧ d.Version = g.Version ∧
      d.Packaging = g.Packaging ∧ d.Classifier = g.Classifier ∧
      ('.' ∉ g.GroupID → d = g) := by
  obtain ⟨hG0, hA0, hV0, _, hG1, hA1, hV1, hC1, hP1, hP2⟩ := h
  have rA : RealElem g.ArtifactID := ⟨hA0, hA1, hA.1, hA.2⟩
  have rV : RealElem g.Version := ⟨hV0, hV1, hV.1, hV.2⟩
  refine ⟨_, decode_encode g rA rV hC1 hP2 hP1, rfl, rfl, rfl, rfl, fun hdot => ?_⟩
  have rG : RealElem g.GroupID := realElem_of_noDot hG0 hG1 hdot
  have hF := filename_noSep (S := classifierSuffix g.Classifier) hA1 hV1
    (classifierSuffix_noSep hC1) hP1
  have hgrp := group_of_rooted g.GroupID g.ArtifactID g.Version _ rG rA rV hF
  rw [encode_eq, replaceAll_noDot _ hdot, hgrp]

/-- C1 (amended), applied to `acme:widget:1.0.0:jar:sources`. -/
theorem C1_roundtrip_amended_witness :
    ∃ d, DefaultLayout (Gav.DefaultLayout
        ⟨"acme".toList, "widget".toList, "1.0.0".toList, "jar".toList, "sources".toList⟩) =
          some d ∧
      d.ArtifactID = "widget".toList ∧ d.Version = "1.0.0".toList ∧
      d.Packaging = "jar".toList ∧ d.Classifier = "sources".toList ∧
      ('.' ∉ "acme".toList → d =
        ⟨"acme".toList, "widget".toList, "1.0.0".toList, "jar".toList, "sources".toList⟩) :=
  C1_roundtrip_amended
    ⟨"acme".toList, "widget".toList, "1.0.0".toList, "jar".toList, "sources".toList⟩
    (by decide) (by decide) (by decide)

/-- C2 (the code at the failing input): decoding
`com/acme/widget/1.0.0/widget-1.0.0.jar` yields the GroupID `acme`, the last
directory of the group path only, and not `com/acme`. -/
theorem C2_group_is_last_directory_only :
    DefaultLayout "com/acme/widget/1.0.0/widget-1.0.0.jar".toList =
        some ⟨"acme".toList, "widget".toList, "1.0.0".toList, "jar".toList, []⟩ ∧
      (DefaultLayout "com/acme/widget/1.0.0/widget-1.0.0.jar".toList).map Gav.GroupID ≠
        some "com/acme".toList := by
  decide

/-- C3: for every path `G/A/V/A-V[-C].P`, where `A` and `V` are non-empty
directory names without separator other than `.` and `..`, `P` is not empty
and has neither dot nor separator and the classifier `C` (empty when the `-C`
part is absent) has no separator, `DefaultLayout` returns a GAV, with
ArtifactID `A`, Version `V`, Packaging `P` and Classifier `C`. -/
theorem C3_decode_recovers_fields (G A V C P : GoString)
    (hA : A ≠ [] ∧ '/' ∉ A ∧ A ≠ ['.'] ∧ A ≠ ['.', '.'])
    (hV : V ≠ [] ∧ '/' ∉ V ∧ V ≠ ['.'] ∧ V ≠ ['.', '.'])
    (hP : P ≠ [] ∧ '.' ∉ P ∧ '/' ∉ P) (hC : '/' ∉ C) :
    ∃ g, DefaultLayout (G ++ ['/'] ++ A ++ ['/'] ++ V ++ ['/'] ++ A ++ ['-'] ++ V ++
        (if C.length > 0 then '-' :: C else []) ++ ['.'] ++ P) = some g ∧
      g.ArtifactID = A ∧ g.Version = V ∧ g.Packaging = P ∧ g.Classifier = C := by
  have h := DefaultLayout_layout G A V (classifierSuffix C) P hA hV
    (classifierSuffix_noSep hC) hP.2.1 hP.2.2
  rw [classifierSuffix_tail] at h
  have hpath : G ++ ['/'] ++ A ++ ['/'] ++ V ++ ['/'] ++ A ++ ['-'] ++ V ++
      (if C.length > 0 then '-' :: C else []) ++ ['.'] ++ P =
      G ++ '/' :: (A ++ '/' :: (V ++ '/' :: (A ++ '-' :: (V ++
        (classifierSuffix C ++ '.' :: P))))) := by
    simp [classifierSuffix]
  rw [hpath, h]
  exact ⟨_, rfl, rfl, rfl, rfl, rfl⟩

/-- C3 at the two paths the specification names. -/
theorem C3_decode_recovers_fields_witness :
    (∃ g, DefaultLayout "com/acme/widget/1.0.0/widget-1.0.0.jar".toList = some g ∧
      g.ArtifactID = "widget".toList ∧ g.Version = "1.0.0".toList ∧
      g.Packaging = "jar".toList ∧ g.Classifier = []) ∧
    (∃ g, DefaultLayout "com/acme/widget/1.0.0/widget-1.0.0-sources.jar".toList = some g ∧
      g.ArtifactID = "widget".toList ∧ g.Version = "1.0.0".toList ∧
      g.Packaging = "jar".toList ∧ g.Classifier = "sources".toList) :=
  ⟨C3_decode_recovers_fields "com/acme".toList "widget".toList "1.0.0".toList []
      "jar".toList (by decide) (by decide) (by decide) (by decide),
    C3_decode_recovers_fields "com/acme".toList "widget".toList "1.0.0".toList
      "sources".toList "jar".toList (by decide) (by decide) (by decide) (by decide)⟩

end SyncRepo

namespace GoLib

theorem splitOnByte_ne_nil (sep : Char) (s : GoString) : splitOnByte sep s ≠ [] := by
  cases s with
  | nil => simp [splitOnByte]
  | cons c s =>
    simp only [splitOnByte]
    split_ifs
    · simp
    · split <;> simp

theorem splitOnByte_cons_ne (sep c : Char) (s : GoString) (hc : c ≠ sep) :
    ∃ seg segs, splitOnByte sep s = seg :: segs ∧
      splitOnByte sep (c :: s) = (c :: seg) :: segs := by
  cases h : splitOnByte sep s with
  | nil => exact absurd h (splitOnByte_ne_nil sep s)
  | cons seg segs => exact ⟨seg, segs, rfl, by simp [splitOnByte, hc, h]⟩

/-- Splitting distributes over a separator in the middle. -/
theorem splitOnByte_append (sep : Char) (X Y : GoString) :
    splitOnByte sep (X ++ sep :: Y) = splitOnByte sep X ++ splitOnByte sep Y := by
  induction X with
  | nil => simp [splitOnByte]
  | cons c X ih =>
    by_cases hc : c = sep
    · simp [splitOnByte, hc, ih]
    · obtain ⟨seg, segs, h1, h2⟩ := splitOnByte_cons_ne sep c X hc
      obtain ⟨seg2, segs2, h3, h4⟩ := splitOnByte_cons_ne sep c (X ++ sep :: Y) hc
      rw [List.cons_append, h4, h2]
      rw [ih, h1] at h3
      simp only [List.cons_append, List.cons.injEq] at h3
      simp [h3.1, h3.2]

theorem splitOnByte_noSep (sep : Char) (F : GoString) (h : sep ∉ F) :
    splitOnByte sep F = [F] := by
  induction F with
  | nil => simp [splitOnByte]
  | cons c F ih =>
    have hc : c ≠ sep := fun e => h (by simp [e])
    have hF : sep ∉ F := fun e => h (by simp [e])
    simp [splitOnByte, hc, ih hF]

theorem splitOnByte_length (sep : Char) (s : GoString) :
    (splitOnByte sep s).length = s.count sep + 1 := by
  induction s with
  | nil => simp [splitOnByte]
  | cons c s ih =>
    by_cases hc : c = sep
    · simp [splitOnByte, hc, ih]
    · obtain ⟨seg, segs, h1, h2⟩ := splitOnByte_cons_ne sep c s hc
      have hc2 : sep ≠ c := fun e => hc e.symm
      rw [h2, List.count_cons_of_ne hc2, ← ih, h1]
      simp

/-- The group path splits at the separators where the group splits at the dots. -/
theorem splitOnByte_replaceAll (G : GoString) (h : '/' ∉ G) :
    splitOnByte '/' (ReplaceAll G '.' '/') = splitOnByte '.' G := by
  induction G with
  | nil => simp [splitOnByte, ReplaceAll]
  | cons c G ih =>
    have hc : c ≠ '/' := head_ne_of_not_mem h
    have ih2 := ih (tail_not_mem h)
    unfold ReplaceAll at ih2 ⊢
    by_cases hd : c = '.'
    · simp [splitOnByte, hd, ih2]
    · simp [splitOnByte, hd, hc, ih2]

end GoLib

namespace SyncRepo
open GoLib

/-- C4: the encoder of the sync tool and the encoder of the upload tool both
return `/` + group with every dot replaced by `/` + `/` + artifact + `/` +
version + `/` + artifact + `-` + version + S + `.` + packaging, where S is
`-` + classifier for a non-empty classifier and empty otherwise; the GAV
`com.acme:widget:1.0.0:jar` encodes to `/com/acme/widget/1.0.0/widget-1.0.0.jar`. -/
theorem C4_encode_formula (G A V P C : GoString) :
    Gav.DefaultLayout ⟨G, A, V, P, C⟩ =
        ['/'] ++ G.map (fun c => if c = '.' then '/' else c) ++ ['/'] ++ A ++ ['/'] ++ V ++
          ['/'] ++ A ++ ['-'] ++ V ++ (if C ≠ [] then ['-'] ++ C else []) ++ ['.'] ++ P ∧
      SfvUpload.Gav.DefaultLayout ⟨G, A, V, P, C⟩ = Gav.DefaultLayout ⟨G, A, V, P, C⟩ ∧
      Gav.DefaultLayout ⟨"com.acme".toList, "widget".toList, "1.0.0".toList, "jar".toList, []⟩ =
        "/com/acme/widget/1.0.0/widget-1.0.0.jar".toList := by
  refine ⟨?_, rfl, by decide⟩
  rw [encode_eq]
  cases C <;> simp [classifierSuffix, ReplaceAll]

/-- C5 (counterexample): the GAV `com.acme:widget:1.0.0:jar`, whose fields
are free of the separator and whose classifier is empty, encodes to a path
with five segments after the leading separator, not four. -/
theorem C5_four_segments_counterexample :
    '/' ∉ "com.acme".toList ∧ '/' ∉ "widget".toList ∧ '/' ∉ "1.0.0".toList ∧
      '/' ∉ "jar".toList ∧
      splitOnByte '/' (Gav.DefaultLayout
        ⟨"com.acme".toList, "widget".toList, "1.0.0".toList, "jar".toList, []⟩).tail =
        ["com".toList, "acme".toList, "widget".toList, "1.0.0".toList,
          "widget-1.0.0.jar".toList] ∧
      (splitOnByte '/' (Gav.DefaultLayout
        ⟨"com.acme".toList, "widget".toList, "1.0.0".toList, "jar".toList, []⟩).tail).length
        ≠ 4 := by
  decide

/-- C5 (amended): for every GAV whose fields are free of the separator, the
encoded path begins with the separator, and the text after it consists of the
dot-separated components of the group, one segment each, followed by exactly
three segments: the artifact, the version and the file name
`<artifact>-<version>[-<classifier>].<packaging>`.  A classifier adds no
segment; the number of segments is four plus the number of dots in the group,
hence four exactly when the group has no dot. -/
theorem C5_encoded_shape_amended (g : Gav) (hG : '/' ∉ g.GroupID) (hA : '/' ∉ g.ArtifactID)
    (hV : '/' ∉ g.Version) (hC : '/' ∉ g.Classifier) (hP : '/' ∉ g.Packaging) :
    g.DefaultLayout.head? = some '/' ∧
      splitOnByte '/' g.DefaultLayout.tail =
        splitOnByte '.' g.GroupID ++
          [g.ArtifactID, g.Version,
            g.ArtifactID ++ ['-'] ++ g.Version ++
              (if g.Classifier ≠ [] then ['-'] ++ g.Classifier else []) ++ ['.'] ++
              g.Packaging] ∧
      (splitOnByte '/' g.DefaultLayout.tail).length = 4 + g.GroupID.count '.' := by
  have hF := filename_noSep hA hV (classifierSuffix_noSep hC) hP
  have hsplit : splitOnByte '/' g.DefaultLayout.tail =
      splitOnByte '.' g.GroupID ++
        [g.ArtifactID, g.Version,
          g.ArtifactID ++ '-' :: (g.Version ++ (classifierSuffix g.Classifier ++
            '.' :: g.Packaging))] := by
    rw [encode_eq, List.tail_cons, splitOnByte_append, splitOnByte_append, splitOnByte_append,
      splitOnByte_replaceAll _ hG, splitOnByte_noSep _ _ hA, splitOnByte_noSep _ _ hV,
      splitOnByte_noSep _ _ hF]
    simp
  refine ⟨by rw [encode_eq]; rfl, ?_, ?_⟩
  · rw [hsplit]
    cases hc : g.Classifier <;> simp [classifierSuffix]
  · rw [hsplit, List.length_append, splitOnByte_length]
    simp
    omega

/-- C5 (amended), applied to `com.acme:widget:1.0.0:jar:sources`. -/
theorem C5_encoded_shape_amended_witness :
    (Gav.DefaultLayout
        ⟨"com.acme".toList, "widget".toList, "1.0.0".toList, "jar".toList,
          "sources".toList⟩).head? = some '/' ∧
      splitOnByte '/' (Gav.DefaultLayout
        ⟨"com.acme".toList, "widget".toList, "1.0.0".toList, "jar".toList,
          "sources".toList⟩).tail =
        splitOnByte '.' "com.acme".toList ++
          ["widget".toList, "1.0.0".toList, "widget-1.0.0-sources.jar".toList] ∧
      (splitOnByte '/' (Gav.DefaultLayout
        ⟨"com.acme".toList, "widget".toList, "1.0.0".toList, "jar".toList,
          "sources".toList⟩).tail).length = 4 + 1 :=
  C5_encoded_shape_amended
    ⟨"com.acme".toList, "widget".toList, "1.0.0".toList, "jar".toList, "sources".toList⟩
    (by decide) (by decide) (by decide) (by decide) (by decide)

/-- C9 (counterexample): the file name `gadget-2.0.0-x.jar` in the directory
`widget/1.0.0` does not start with `widget-1.0.0`, yet the decoded classifier
is `x`, not empty; and for the file name `README`, which has no extension,
`DefaultLayout` fails with an out-of-range slice. -/
theorem C9_classifier_counterexample :
    (¬ ("widget-1.0.0".toList).isPrefixOf "gadget-2.0.0-x.jar".toList = true ∧
      (DefaultLayout "g/widget/1.0.0/gadget-2.0.0-x.jar".toList).map Gav.Classifier =
        some "x".toList) ∧
    (¬ ("widget-1.0.0".toList).isPrefixOf "README".toList = true ∧
      DefaultLayout "g/widget/1.0.0/README".toList = none) := by
  decide

/-- C9 (amended): for every path whose file name has an extension,
`DefaultLayout` does not fail; the classifier is empty whenever the file name
without its extension is not longer than `<artifact>-<version>`, and otherwise
it is the part of the file name from offset `len(artifact)+len(version)+2` up
to the extension, whether or not the file name starts with
`<artifact>-<version>`. -/
theorem C9_classifier_amended (path : GoString) (hext : Ext (Base path) ≠ []) :
    ∃ g, DefaultLayout path = some g ∧
      g.Classifier =
        if (Base (Dir (Dir path))).length + 1 + (Base (Dir path)).length <
            (Base path).length - (Ext (Base path)).length then
          ((Base path).drop
              ((Base (Dir (Dir path))).length + 1 + (Base (Dir path)).length + 1)).take
            ((Base path).length - (Ext (Base path)).length -
              ((Base (Dir (Dir path))).length + 1 + (Base (Dir path)).length + 1))
        else [] := by
  have h1 : 1 ≤ (Ext (Base path)).length := by
    cases h : Ext (Base path) with
    | nil => exact absurd h hext
    | cons c l => simp
  by_cases hlt : (Base (Dir (Dir path))).length + 1 + (Base (Dir path)).length <
      (Base path).length - (Ext (Base path)).length
  · have h2 : (Base (Dir (Dir path))).length + 1 + (Base (Dir path)).length + 1 ≤
        (Base path).length - (Ext (Base path)).length ∧
        (Base path).length - (Ext (Base path)).length ≤ (Base path).length := by
      omega
    simp [DefaultLayout, sliceBetween, sliceFrom, hlt, h2, h1]
  · simp [DefaultLayout, sliceFrom, hlt, h1]

/-- C9 (amended), applied to a file name that does not start with
`<artifact>-<version>` and is too short to hold a classifier. -/
theorem C9_classifier_amended_witness :
    ∃ g, DefaultLayout "g/widget/1.0.0/w.jar".toList = some g ∧ g.Classifier = [] :=
  C9_classifier_amended "g/widget/1.0.0/w.jar".toList (by decide)

end SyncRepo

/-! ## The claims about the delivery report -/

namespace SfvUpload

theorem determineReturnCode_eq_three_iff (ns : List Notification) :
    determineReturnCode ns = 3 ↔
      ∃ n ∈ ns, n.Severity = "ERROR".toList ∨ n.Severity = "FATAL".toList := by
  induction ns with
  | nil => simp [determineReturnCode]
  | cons n ns ih =>
    by_cases h : "ERROR".toList = n.Severity ∨ "FATAL".toList = n.Severity
    · have h2 : n.Severity = "ERROR".toList ∨ n.Severity = "FATAL".toList :=
        h.imp Eq.symm Eq.symm
      simp only [determineReturnCode, h, if_true, List.mem_cons, true_iff]
      exact ⟨n, Or.inl rfl, h2⟩
    · have h2 : ¬(n.Severity = "ERROR".toList ∨ n.Severity = "FATAL".toList) :=
        fun e => h (e.imp Eq.symm Eq.symm)
      simp only [determineReturnCode, h, if_false, ih, List.mem_cons]
      constructor
      · rintro ⟨m, hm, hs⟩
        exact ⟨m, Or.inr hm, hs⟩
      · rintro ⟨m, hm | hm, hs⟩
        · exact absurd (hm ▸ hs) h2
        · exact ⟨m, hm, hs⟩

theorem determineReturnCode_three_or_zero (ns : List Notification) :
    determineReturnCode ns = 3 ∨ determineReturnCode ns = 0 := by
  induction ns with
  | nil => exact Or.inr rfl
  | cons n ns ih =>
    simp only [determineReturnCode]
    split_ifs
    · exact Or.inl rfl
    · exact ih

/-- C6: after the report has been fetched every notification is written, in
order, and the exit code is 3 if and only if some notification has the
severity `ERROR` or `FATAL`, compared byte for byte, and 0 otherwise.  Two
reports in which the same severities occur lead to the same exit code,
whatever their ReturnValue, HighestSeverity, ids, messages and order. -/
theorem C6_quality_gate_exit (d : Delivery) :
    (reportAndExit d).1 = d.Report.Notifications ∧
      ((reportAndExit d).2 = 3 ↔
        ∃ n ∈ d.Report.Notifications,
          n.Severity = "ERROR".toList ∨ n.Severity = "FATAL".toList) ∧
      ((¬∃ n ∈ d.Report.Notifications,
          n.Severity = "ERROR".toList ∨ n.Severity = "FATAL".toList) →
        (reportAndExit d).2 = 0) ∧
      (∀ d2 : Delivery,
        (∀ sev, sev ∈ d.Report.Notifications.map Notification.Severity ↔
          sev ∈ d2.Report.Notifications.map Notification.Severity) →
        (reportAndExit d2).2 = (reportAndExit d).2) := by
  have key := determineReturnCode_eq_three_iff
  refine ⟨rfl, key _, fun h => ?_, fun d2 hsev => ?_⟩
  · rcases determineReturnCode_three_or_zero d.Report.Notifications with h3 | h0
    · exact absurd ((key _).mp h3) h
    · exact h0
  · have transfer : ∀ a b : List Notification,
        (∀ sev, sev ∈ a.map Notification.Severity → sev ∈ b.map Notification.Severity) →
        determineReturnCode a = 3 → determineReturnCode b = 3 := by
      intro a b hab h3
      obtain ⟨n, hn, hs⟩ := (key a).mp h3
      obtain ⟨m, hm, hms⟩ := List.mem_map.mp (hab _ (List.mem_map.mpr ⟨n, hn, rfl⟩))
      exact (key b).mpr ⟨m, hm, by rw [hms]; exact hs⟩
    show determineReturnCode d2.Report.Notifications =
      determineReturnCode d.Report.Notifications
    rcases determineReturnCode_three_or_zero d.Report.Notifications with h3 | h0
    · rw [h3]
      exact transfer _ _ (fun sev hx => (hsev sev).mp hx) h3
    · rcases determineReturnCode_three_or_zero d2.Report.Notifications with k3 | k0
      · have := transfer _ _ (fun sev hx => (hsev sev).mpr hx) k3
        rw [h0] at this
        exact absurd this (by decide)
      · rw [h0, k0]

/-- C6 at the reports the specification names: `WARN` then `ERROR` gives 3;
`WARN` and `INFO` only, and the lower-case severity `error`, give 0. -/
theorem C6_quality_gate_exit_witness :
    (reportAndExit ⟨⟨[], [], [⟨1, "WARN".toList, "ok".toList⟩,
        ⟨2, "ERROR".toList, "bad".toList⟩]⟩⟩).2 = 3 ∧
      (reportAndExit ⟨⟨"1".toList, "FATAL".toList, [⟨1, "WARN".toList, "ok".toList⟩,
        ⟨2, "INFO".toList, "fine".toList⟩, ⟨3, "error".toList, "bad".toList⟩]⟩⟩).2 = 0 :=
  ⟨(C6_quality_gate_exit _).2.1.mpr ⟨⟨2, "ERROR".toList, "bad".toList⟩, by decide, by decide⟩,
    (C6_quality_gate_exit _).2.2.1 (by decide)⟩

end SfvUpload

/-! ## The claims about the sync protocol -/

namespace SyncRepo
open GoLib

/-- The iterations of `processArtifact` that do not abort. -/
theorem processArtifact_ok (f : Flags) (w : World) (r r2 : Run) (a : Artifact)
    (h : processArtifact f w r a = Except.ok r2) :
    ∃ status, w.Do r.requests (headRequest f a) = some status ∧
      (status = StatusOK ∨ status = StatusNotFound) ∧
      r2.requests = r.requests ++ headRequest f a ::
        (if status = StatusNotFound ∧ f.upload = true then [putRequest f a] else []) ∧
      r2.printed = r.printed ++
        [{ a with NexusStatusCode :=
            if status = StatusNotFound ∧ f.upload = true then StatusCreated else status }] := by
  unfold processArtifact at h
  by_cases h1 : w.newRequestFails (artifactURL f a) = true
  · simp [h1] at h
  · simp only [h1, Bool.false_eq_true, if_false] at h
    cases hd : w.Do r.requests (headRequest f a) with
    | none => simp [hd] at h
    | some status =>
      simp only [hd] at h
      by_cases h2 : status ≠ StatusNotFound ∧ status ≠ StatusOK
      · simp [h2] at h
      · simp only [h2, if_false] at h
        have hst : status = StatusOK ∨ status = StatusNotFound := by
          by_cases e : status = StatusNotFound
          · exact Or.inr e
          · by_cases e2 : status = StatusOK
            · exact Or.inl e2
            · exact absurd ⟨e, e2⟩ h2
        refine ⟨status, rfl, hst, ?_⟩
        by_cases h3 : status = StatusNotFound ∧ f.upload = true
        · simp only [h3, and_self, if_true] at h ⊢
          by_cases h4 : w.openFails (filepathJoin [a.Path, a.Filename]) = true
          · simp [h4] at h
          · simp only [h4, Bool.false_eq_true, if_false] at h
            cases hp : w.Do (r.requests ++ [headRequest f a]) (putRequest f a) with
            | none => simp [hp] at h
            | some status2 =>
              simp only [hp] at h
              by_cases h5 : status2 ≠ StatusCreated
              · simp [h5] at h
              · have h6 : status2 = StatusCreated := by
                  by_contra e
                  exact h5 e
                simp only [h5, if_false, Except.ok.injEq] at h
                subst h
                simp [h6]
        · simp only [h3, if_false, Except.ok.injEq] at h
          subst h
          rw [if_neg h3, if_neg h3]
          simp

/-- With upload mode disabled an iteration issues at most the HEAD request. -/
theorem processArtifact_noUpload (f : Flags) (w : World) (r : Run) (a : Artifact)
    (hu : f.upload = false) :
    (finalRun (processArtifact f w r a)).requests = r.requests ∨
      (finalRun (processArtifact f w r a)).requests = r.requests ++ [headRequest f a] := by
  unfold processArtifact
  by_cases h1 : w.newRequestFails (artifactURL f a) = true
  · simp [h1, finalRun]
  · simp only [h1, Bool.false_eq_true, if_false]
    cases hd : w.Do r.requests (headRequest f a) with
    | none => simp [finalRun]
    | some status =>
      by_cases h2 : status ≠ StatusNotFound ∧ status ≠ StatusOK
      · simp [h2, finalRun]
      · simp [h2, hu, finalRun]

theorem headRequest_method (f : Flags) (a : Artifact) :
    (headRequest f a).method = Method.HEAD := by
  unfold headRequest withAuth
  split_ifs <;> rfl

theorem putRequest_method (f : Flags) (a : Artifact) :
    (putRequest f a).method = Method.PUT := by
  unfold putRequest withAuth
  split_ifs <;> rfl

theorem headRequest_url (f : Flags) (a : Artifact) :
    (headRequest f a).url = artifactURL f a := by
  unfold headRequest withAuth
  split_ifs <;> rfl

theorem putRequest_url (f : Flags) (a : Artifact) :
    (putRequest f a).url = artifactURL f a := by
  unfold putRequest withAuth
  split_ifs <;> rfl

/-- With upload mode disabled a whole run, aborted or not, adds only HEAD
requests to those already issued. -/
theorem syncLoop_noUpload (f : Flags) (w : World) (as : List Artifact) (r : Run)
    (hu : f.upload = false) :
    ∀ q ∈ (finalRun (syncLoop f w as r)).requests, q ∈ r.requests ∨ q.method = Method.HEAD := by
  induction as generalizing r with
  | nil => intro q hq; exact Or.inl hq
  | cons a as ih =>
    intro q hq
    have hstep := processArtifact_noUpload f w r a hu
    have hmem : ∀ q ∈ (finalRun (processArtifact f w r a)).requests,
        q ∈ r.requests ∨ q.method = Method.HEAD := by
      intro q hq
      rcases hstep with e | e
      · rw [e] at hq; exact Or.inl hq
      · rw [e] at hq
        rcases List.mem_append.mp hq with h | h
        · exact Or.inl h
        · right
          have : q = headRequest f a := by simpa using h
          rw [this]; exact headRequest_method f a
    cases hp : processArtifact f w r a with
    | error r1 =>
      simp only [syncLoop, hp, finalRun] at hq
      have := hmem q (by rw [hp]; exact hq)
      exact this
    | ok r1 =>
      simp only [syncLoop, hp] at hq
      rcases ih r1 q hq with h | h
      · exact hmem q (by rw [hp]; exact h)
      · exact Or.inr h

/-- A probe answered 200, or answered 404 with upload mode disabled, ends the
iteration normally: the HEAD request is the only one and the artifact is
printed with the probe status. -/
theorem processArtifact_probe_only (f : Flags) (w : World) (r : Run) (a : Artifact)
    (status : Nat) (hurl : w.newRequestFails (artifactURL f a) = false)
    (hd : w.Do r.requests (headRequest f a) = some status)
    (hs : status = StatusOK ∨ (status = StatusNotFound ∧ f.upload = false)) :
    processArtifact f w r a =
      Except.ok ⟨r.requests ++ [headRequest f a],
        r.printed ++ [{ a with NexusStatusCode := status }]⟩ := by
  unfold processArtifact
  rcases hs with h | ⟨h, hu⟩
  · subst h
    simp [hurl, hd, StatusOK, StatusNotFound]
  · subst h
    simp [hurl, hd, hu, StatusOK, StatusNotFound]

/-- A probe answered 404 in upload mode, followed by a PUT answered 201, ends
the iteration normally: HEAD then PUT, and the artifact printed with 201. -/
theorem processArtifact_upload (f : Flags) (w : World) (r : Run) (a : Artifact)
    (hurl : w.newRequestFails (artifactURL f a) = false)
    (hd : w.Do r.requests (headRequest f a) = some StatusNotFound) (hu : f.upload = true)
    (ho : w.openFails (filepathJoin [a.Path, a.Filename]) = false)
    (hp : w.Do (r.requests ++ [headRequest f a]) (putRequest f a) = some StatusCreated) :
    processArtifact f w r a =
      Except.ok ⟨r.requests ++ [headRequest f a, putRequest f a],
        r.printed ++ [{ a with NexusStatusCode := StatusCreated }]⟩ := by
  unfold processArtifact
  simp [hurl, hd, hu, ho, hp, StatusOK, StatusNotFound]

/-- The requests one iteration issues, whatever its outcome: none, the HEAD
request alone, or HEAD then PUT, the latter only after a probe answered 404
in upload mode. -/
theorem processArtifact_requests (f : Flags) (w : World) (r : Run) (a : Artifact) :
    (finalRun (processArtifact f w r a)).requests = r.requests ∨
      (finalRun (processArtifact f w r a)).requests = r.requests ++ [headRequest f a] ∨
      ((finalRun (processArtifact f w r a)).requests =
          r.requests ++ [headRequest f a, putRequest f a] ∧
        w.Do r.requests (headRequest f a) = some StatusNotFound ∧ f.upload = true) := by
  unfold processArtifact
  by_cases h1 : w.newRequestFails (artifactURL f a) = true
  · simp [h1, finalRun]
  · simp only [h1, Bool.false_eq_true, if_false]
    cases hd : w.Do r.requests (headRequest f a) with
    | none => simp [finalRun]
    | some status =>
      by_cases h2 : status ≠ StatusNotFound ∧ status ≠ StatusOK
      · simp [h2, finalRun]
      · by_cases h3 : status = StatusNotFound ∧ f.upload = true
        · obtain ⟨hs, hu⟩ := h3
          subst hs
          by_cases h4 : w.openFails (filepathJoin [a.Path, a.Filename]) = true
          · simp [hu, h4, finalRun, StatusOK, StatusNotFound]
          · cases hp : w.Do (r.requests ++ [headRequest f a]) (putRequest f a) with
            | none => simp [hu, h4, hp, finalRun, StatusOK, StatusNotFound]
            | some status2 =>
              by_cases h5 : status2 ≠ StatusCreated
              · simp [hu, h4, hp, h5, finalRun, StatusOK, StatusNotFound]
              · simp [hu, h4, hp, h5, finalRun, StatusOK, StatusNotFound]
        · simp [h2, h3, finalRun]

theorem syncLoop_append (f : Flags) (w : World) (pre rest : List Artifact) (r0 r : Run)
    (h : syncLoop f w pre r0 = Except.ok r) :
    syncLoop f w (pre ++ rest) r0 = syncLoop f w rest r := by
  induction pre generalizing r0 with
  | nil =>
    simp only [syncLoop, Except.ok.injEq] at h
    subst h
    rfl
  | cons a pre ih =>
    simp only [List.cons_append, syncLoop] at h ⊢
    cases hp : processArtifact f w r0 a with
    | error r1 => simp [hp] at h
    | ok r1 =>
      simp only [hp] at h ⊢
      exact ih r1 h

end SyncRepo

namespace SyncRepo
open GoLib

/-- C7: a probe answered 200, or answered 404 with upload mode disabled, is
followed by no PUT and the artifact is printed with the probe status; a probe
answered 404 in upload mode is followed by a PUT to the URL of the probe, and
when that is answered 201 the artifact is printed with status 201.
Conversely, when the processing of an artifact does not abort, the probe was
answered 200 or 404, a PUT follows the HEAD request if and only if the probe
was answered 404 and upload mode is enabled, and the status printed is 201 in
that case and the probe status otherwise.  Whatever the outcome of an
iteration, a PUT it issues is the PUT for this artifact and comes after a
probe answered 404 in upload mode; with upload mode disabled no run, aborted
or not, issues anything but HEAD requests. -/
theorem C7_conditional_upload (f : Flags) (w : World) (r : Run) (a : Artifact) :
    (w.newRequestFails (artifactURL f a) = false →
      ∀ status, w.Do r.requests (headRequest f a) = some status →
        (status = 200 ∨ (status = 404 ∧ f.upload = false)) →
        processArtifact f w r a =
          Except.ok ⟨r.requests ++ [headRequest f a],
            r.printed ++ [{ a with NexusStatusCode := status }]⟩) ∧
    (w.newRequestFails (artifactURL f a) = false →
      w.Do r.requests (headRequest f a) = some 404 → f.upload = true →
      w.openFails (filepathJoin [a.Path, a.Filename]) = false →
      w.Do (r.requests ++ [headRequest f a]) (putRequest f a) = some 201 →
      processArtifact f w r a =
        Except.ok ⟨r.requests ++ [headRequest f a, putRequest f a],
          r.printed ++ [{ a with NexusStatusCode := 201 }]⟩) ∧
    (∀ r2, processArtifact f w r a = Except.ok r2 →
      ∃ status, w.Do r.requests (headRequest f a) = some status ∧
        (status = 200 ∨ status = 404) ∧
        r2.requests = r.requests ++ headRequest f a ::
          (if status = 404 ∧ f.upload = true then [putRequest f a] else []) ∧
        r2.printed = r.printed ++
          [{ a with
              NexusStatusCode := if status = 404 ∧ f.upload = true then 201 else status }] ∧
        (putRequest f a ∈ r2.requests.drop r.requests.length ↔
          status = 404 ∧ f.upload = true)) ∧
    (∀ q ∈ (finalRun (processArtifact f w r a)).requests.drop r.requests.length,
      q.method = Method.PUT →
        q = putRequest f a ∧ w.Do r.requests (headRequest f a) = some 404 ∧
          f.upload = true) ∧
    (headRequest f a).method = Method.HEAD ∧ (putRequest f a).method = Method.PUT ∧
    (putRequest f a).url = (headRequest f a).url ∧
    (f.upload = false → ∀ (as : List Artifact) (r0 : Run),
      ∀ q ∈ (finalRun (syncLoop f w as r0)).requests,
        q ∈ r0.requests ∨ q.method = Method.HEAD) := by
  have hne : putRequest f a ≠ headRequest f a := by
    intro e
    have := congrArg Request.method e
    rw [putRequest_method, headRequest_method] at this
    exact absurd this (by decide)
  refine ⟨fun hurl status hd hs => processArtifact_probe_only f w r a status hurl hd hs,
    fun hurl hd hu ho hp => processArtifact_upload f w r a hurl hd hu ho hp,
    fun r2 h => ?_, fun q hq hm => ?_, headRequest_method f a, putRequest_method f a,
    by rw [putRequest_url, headRequest_url], fun hu as r0 => syncLoop_noUpload f w as r0 hu⟩
  · obtain ⟨status, h1, h2, h3, h4⟩ := processArtifact_ok f w r r2 a h
    refine ⟨status, h1, h2, h3, h4, ?_⟩
    rw [h3, List.drop_left]
    by_cases hc : status = StatusNotFound ∧ f.upload = true
    · have hc2 : status = 404 ∧ f.upload = true := hc
      rw [if_pos hc]
      exact ⟨fun _ => hc2, fun _ => by simp⟩
    · have hc2 : ¬(status = 404 ∧ f.upload = true) := hc
      rw [if_neg hc]
      simp only [List.mem_singleton, hne, false_iff]
      exact hc2
  · have hhead : q ≠ headRequest f a := by
      intro e
      rw [e, headRequest_method] at hm
      exact absurd hm (by decide)
    rcases processArtifact_requests f w r a with e | e | ⟨e, hd, hu⟩
    · rw [e] at hq
      simp at hq
    · rw [e, List.drop_left] at hq
      exact absurd (List.mem_singleton.mp hq) hhead
    · rw [e, List.drop_left] at hq
      have hq2 : q = headRequest f a ∨ q = putRequest f a := by simpa using hq
      rcases hq2 with h | h
      · exact absurd h hhead
      · exact ⟨h, hd, hu⟩

/-- C7 on three servers: one that answers 200 to the probe, with upload mode
enabled (HEAD only, printed 200); one that holds nothing, with upload mode
disabled (HEAD only, printed 404); one that holds nothing and accepts
everything, with upload mode enabled (HEAD, PUT, printed 201). -/
theorem C7_conditional_upload_witness :
    processArtifact sampleFlags (constWorld 200) ⟨[], []⟩
        (sampleArtifact "a/b/1/b-1.jar".toList) =
      Except.ok
        ⟨[headRequest sampleFlags (sampleArtifact "a/b/1/b-1.jar".toList)],
          [{ sampleArtifact "a/b/1/b-1.jar".toList with NexusStatusCode := 200 }]⟩ ∧
    processArtifact sampleFlagsNoUpload emptyWorld ⟨[], []⟩
        (sampleArtifact "a/b/1/b-1.jar".toList) =
      Except.ok
        ⟨[headRequest sampleFlagsNoUpload (sampleArtifact "a/b/1/b-1.jar".toList)],
          [{ sampleArtifact "a/b/1/b-1.jar".toList with NexusStatusCode := 404 }]⟩ ∧
    processArtifact sampleFlags emptyWorld ⟨[], []⟩ (sampleArtifact "a/b/1/b-1.jar".toList) =
      Except.ok
        ⟨[headRequest sampleFlags (sampleArtifact "a/b/1/b-1.jar".toList),
            putRequest sampleFlags (sampleArtifact "a/b/1/b-1.jar".toList)],
          [{ sampleArtifact "a/b/1/b-1.jar".toList with NexusStatusCode := 201 }]⟩ :=
  ⟨(C7_conditional_upload sampleFlags (constWorld 200) ⟨[], []⟩
      (sampleArtifact "a/b/1/b-1.jar".toList)).1 rfl 200 rfl (Or.inl rfl),
    (C7_conditional_upload sampleFlagsNoUpload emptyWorld ⟨[], []⟩
      (sampleArtifact "a/b/1/b-1.jar".toList)).1 rfl 404 rfl (Or.inr ⟨rfl, rfl⟩),
    (C7_conditional_upload sampleFlags emptyWorld ⟨[], []⟩
      (sampleArtifact "a/b/1/b-1.jar".toList)).2.1 rfl rfl rfl rfl rfl⟩

/-- C8: when the artifacts before position `i` were processed without abort
and the probe for the artifact at position `i` is answered with a status other
than 200 and 404, the run ends by a fatal error there: its last request is
that probe, no PUT follows, nothing is printed for this artifact and nothing
is requested or printed for a later one.  Likewise when the probe is answered
404 in upload mode and the PUT is answered with a status other than 201: the
run ends with the PUT as its last request and nothing printed for the
artifact or any later one. -/
theorem C8_fail_fast (f : Flags) (w : World) (pre post : List Artifact) (a : Artifact)
    (r0 r : Run) (hpre : syncLoop f w pre r0 = Except.ok r)
    (hurl : w.newRequestFails (artifactURL f a) = false) :
    (∀ status, w.Do r.requests (headRequest f a) = some status →
      status ≠ 200 → status ≠ 404 →
      syncLoop f w (pre ++ a :: post) r0 =
        Except.error ⟨r.requests ++ [headRequest f a], r.printed⟩) ∧
    (∀ status2, w.Do r.requests (headRequest f a) = some 404 → f.upload = true →
      w.openFails (filepathJoin [a.Path, a.Filename]) = false →
      w.Do (r.requests ++ [headRequest f a]) (putRequest f a) = some status2 →
      status2 ≠ 201 →
      syncLoop f w (pre ++ a :: post) r0 =
        Except.error ⟨r.requests ++ [headRequest f a, putRequest f a], r.printed⟩) := by
  rw [syncLoop_append f w pre (a :: post) r0 r hpre]
  constructor
  · intro status hd h200 h404
    have hc : status ≠ StatusNotFound ∧ status ≠ StatusOK := ⟨h404, h200⟩
    simp [syncLoop, processArtifact, hurl, hd, hc]
  · intro status2 hd hu ho hp h201
    have hc : status2 ≠ StatusCreated := h201
    have hd2 : w.Do r.requests (headRequest f a) = some StatusNotFound := hd
    simp [syncLoop, processArtifact, hurl, hd2, hu, ho, hp, hc, StatusNotFound, StatusOK]

/-- C8 on two artifacts: a server that answers 500 to everything ends the run
after the first probe; a server that answers 404 to HEAD and 403 to PUT ends
it after the first PUT. -/
theorem C8_fail_fast_witness :
    syncLoop sampleFlags (constWorld 500)
        [sampleArtifact "a/b/1/b-1.jar".toList, sampleArtifact "a/b/1/b-1.pom".toList] ⟨[], []⟩ =
      Except.error ⟨[headRequest sampleFlags (sampleArtifact "a/b/1/b-1.jar".toList)], []⟩ ∧
    syncLoop sampleFlags readOnlyWorld
        [sampleArtifact "a/b/1/b-1.jar".toList, sampleArtifact "a/b/1/b-1.pom".toList] ⟨[], []⟩ =
      Except.error ⟨[headRequest sampleFlags (sampleArtifact "a/b/1/b-1.jar".toList),
        putRequest sampleFlags (sampleArtifact "a/b/1/b-1.jar".toList)], []⟩ :=
  ⟨(C8_fail_fast sampleFlags (constWorld 500) [] [sampleArtifact "a/b/1/b-1.pom".toList]
      (sampleArtifact "a/b/1/b-1.jar".toList) ⟨[], []⟩ ⟨[], []⟩ rfl rfl).1 500 rfl
      (by decide) (by decide),
    (C8_fail_fast sampleFlags readOnlyWorld [] [sampleArtifact "a/b/1/b-1.pom".toList]
      (sampleArtifact "a/b/1/b-1.jar".toList) ⟨[], []⟩ ⟨[], []⟩ rfl rfl).2 403 rfl rfl rfl rfl
      (by decide)⟩

/-- C10 (the code at the failing input): a directory that holds the hidden
file `.hidden` and the files `a.jar` and `b.pom` yields no artifact at all,
because the callback answers `SkipDir` for the hidden file and Walk then
leaves the directory; with a hidden directory in place of the hidden file the
scanner returns `a.jar` and `b.pom`. -/
theorem C10_hidden_file_skips_siblings :
    Walk "repo".toList
        (Node.dir "repo".toList
          [Node.file ".hidden".toList true, Node.file "a.jar".toList true,
            Node.file "b.pom".toList true, Node.file "c.txt".toList true]) [] = some [] ∧
      (Walk "repo".toList
        (Node.dir "repo".toList
          [Node.dir ".hidden".toList [Node.file "h.jar".toList true],
            Node.file "a.jar".toList true, Node.file "b.pom".toList true,
            Node.file "c.txt".toList true]) []).map (fun as => as.map Artifact.Filename) =
        some ["a.jar".toList, "b.pom".toList] := by
  decide

end SyncRepo
